import Mathlib

/-!
Shallow embedding of the Burrows-Wheeler Transform engine of
`src/bwt_processor.py` (class `BWTProcessor`), together with proofs of the
behavioural properties stated in the specification.

Modelling conventions:
* Python strings are `List Char`; Python's `s[i]` is `charAt` (a total
  variant of indexing whose default is never reached on the indices the
  code actually uses).
* Python's `sorted` on lists of strings is `List.insertionSort` with the
  lexicographic order `strLe` (any correct comparison sort produces the
  same list, since the sorted permutation of a multiset under a total
  antisymmetric order is unique); `sorted` on a string's characters is
  `List.insertionSort (· ≤ ·)` over `Char`.
* The imperative occurrence-rank loops of `last_to_first_index` and
  `first_to_last_index` (dicts `occ_L`, `first_pos`, `pos_lists_L`, ...)
  are rendered by their loop invariants: the rank of position `i` is the
  count of `L[i]` in `L[0..i]`, `first_pos[c]` is the index of the first
  occurrence of `c` in the sorted first column, and `pos_lists_L[c]` is
  the increasing list of positions of `c`.
* `invert_bwt` calls `L.index('$')`, which raises `ValueError` when the
  sentinel is absent; fallible results are `Option`.
* The `while` loop of `bw_matching` is rendered with explicit fuel
  (`none` = the loop would still be running when the fuel runs out), so
  that its termination is a provable statement rather than an assumption.
-/

/-- The end-of-string marker appended by the Python code (`"$"`). -/
def sentinel : Char := '$'

/-- Total model of Python string indexing `s[i]`; the default is never
reached at the in-bounds indices used by the code. -/
def charAt (s : List Char) (i : Nat) : Char :=
  s.getD i sentinel

/-- Python string comparison `a < b`: lexicographic by code point, with a
proper prefix comparing below the longer string. -/
def strLt : List Char → List Char → Bool
  | _, [] => false
  | [], _ :: _ => true
  | x :: xs, y :: ys => if x < y then true else if y < x then false else strLt xs ys

/-- The non-strict comparison used to model Python `sorted` on strings. -/
def strLe (a b : List Char) : Prop := strLt b a = false

instance : DecidableRel strLe := fun a b =>
  inferInstanceAs (Decidable (strLt b a = false))

/-- `BWTProcessor.cyclic_rotations`: all cyclic rotations of `text + "$"`. -/
def cyclic_rotations (text : List Char) : List (List Char) :=
  let S := text ++ [sentinel]
  (List.range S.length).map (fun i => S.drop i ++ S.take i)

/-- `BWTProcessor.lexsort_list`: `sorted` on a list of strings. -/
def lexsort_list (text_list : List (List Char)) : List (List Char) :=
  List.insertionSort strLe text_list

/-- `BWTProcessor.bwt`: last characters of the sorted cyclic rotations.
Every rotation is nonempty, so the `getLastD` default is never used. -/
def bwt (text : List Char) : List Char :=
  (lexsort_list (cyclic_rotations text)).map (fun rotation => rotation.getLastD sentinel)

/-- `BWTProcessor.last_to_first_string`: the first column `sorted(L)`. -/
def last_to_first_string (bwt_string : List Char) : List Char :=
  List.insertionSort (· ≤ ·) bwt_string

/-- `BWTProcessor.last_to_first_index`: the LF-mapping
`LF[i] = first_pos[L[i]] + rank_L[i] - 1`, where `rank_L[i]` is the
occurrence count of `L[i]` in `L[0..i]` and `first_pos[c]` the first
index of `c` in the sorted first column. -/
def last_to_first_index (bwt_string : List Char) : List Nat :=
  let first_string := last_to_first_string bwt_string
  (List.range bwt_string.length).map (fun i =>
    let ch := charAt bwt_string i
    first_string.indexOf ch + (bwt_string.take (i + 1)).count ch - 1)

/-- `BWTProcessor.first_to_last_index`: the FL-mapping
`FL[i] = pos_lists_L[F[i]][rank_F[i] - 1]`, where `pos_lists_L[c]` is the
increasing list of positions of `c` in `L` and `rank_F[i]` the occurrence
count of `F[i]` in `F[0..i]`. The Python list lookup is in bounds on the
indices the algorithm produces, so `getD 0` is a faithful total model. -/
def first_to_last_index (bwt_string : List Char) : List Nat :=
  let first_string := last_to_first_string bwt_string
  let n := bwt_string.length
  (List.range n).map (fun i =>
    let ch := charAt first_string i
    let k := (first_string.take (i + 1)).count ch
    (((List.range n).filter (fun j => decide (charAt bwt_string j = ch)))).getD (k - 1) 0)

/-- The reconstruction loop of `BWTProcessor.invert_bwt`: repeat `t`
times: emit `L[j]`, then `j = next_row[j]`. -/
def invertWalk (L : List Char) (next_row : List Nat) : Nat → Nat → List Char
  | 0, _ => []
  | t + 1, j => charAt L j :: invertWalk L next_row t (next_row.getD j 0)

/-- Python `str.rstrip('$')`: drop trailing sentinels. -/
def rstripSentinel (s : List Char) : List Char :=
  (s.reverse.dropWhile (fun c => decide (c = sentinel))).reverse

/-- `BWTProcessor.invert_bwt`. `L.index('$')` raises `ValueError` when no
sentinel is present (`none`); otherwise the LF-walk starts at the first
sentinel position, runs `len(L)` steps, and the collected output is
reversed and right-stripped of sentinels. -/
def invert_bwt (bwt_string : List Char) : Option (List Char) :=
  if sentinel ∈ bwt_string then
    let next_row := last_to_first_index bwt_string
    let j := bwt_string.indexOf sentinel
    let output := invertWalk bwt_string next_row bwt_string.length j
    some (rstripSentinel output.reverse)
  else none

/-- The `while top_pointer <= bottom_pointer` loop of
`BWTProcessor.bw_matching`, processing the reversed pattern with explicit
fuel. Each iteration either returns or consumes one pattern symbol.
`current_positions` is the Python list comprehension over
`range(top_pointer, bottom_pointer + 1)`. -/
def bw_matching_loop (lastcol_str : List Char) (last_to_first_idx : List Nat) :
    Nat → List Char → Nat → Nat → Option Nat
  | 0, _, _, _ => none
  | fuel + 1, revpat, top_pointer, bottom_pointer =>
    if top_pointer ≤ bottom_pointer then
      match revpat with
      | [] => some (bottom_pointer - top_pointer + 1)
      | symbol :: rest =>
        let current_positions :=
          (List.range' top_pointer (bottom_pointer + 1 - top_pointer)).filter
            (fun i => decide (charAt lastcol_str i = symbol))
        match current_positions with
        | [] => some 0
        | p :: ps =>
          bw_matching_loop lastcol_str last_to_first_idx fuel rest
            (last_to_first_idx.getD p 0)
            (last_to_first_idx.getD ((p :: ps).getLast (List.cons_ne_nil p ps)) 0)
    else some 0

/-- `BWTProcessor.bw_matching`. The first-column argument is kept for
faithfulness to the Python signature although the body never reads it. -/
def bw_matching (firstcol_str lastcol_str pattern : List Char)
    (last_to_first_idx : List Nat) : Option Nat :=
  bw_matching_loop lastcol_str last_to_first_idx (pattern.length + 1) pattern.reverse
    0 (lastcol_str.length - 1)

/-- `BWTProcessor.bwa_search`: build the BWT, first column and
LF-mapping, then run `bw_matching`. -/
def bwa_search (text_string pattern : List Char) : Option Nat :=
  let bwt_string := bwt text_string
  let first_col := last_to_first_string bwt_string
  let last_to_first_idx := last_to_first_index bwt_string
  bw_matching first_col bwt_string pattern last_to_first_idx

/-- Error-aware variant of the `bw_matching` loop. Python list indexing
raises `IndexError` out of bounds: the comprehension
`[i for i in range(top_pointer, bottom_pointer + 1) if lastcol_str[i] == symbol]`
raises as soon as it reaches an index past the end of `lastcol_str`
(which happens exactly when `bottom_pointer` is past the end, the range
being nonempty and ending there), and
`last_to_first_idx[current_positions[0]]` /
`last_to_first_idx[current_positions[-1]]` raise on an out-of-range
position. The outer `Option` is the loop fuel (`none` = fuel exhausted),
the inner `Option` is the Python outcome: `some count` for a normal
return, `none` for an uncaught `IndexError`. -/
def bw_matching_loop_checked (lastcol_str : List Char) (last_to_first_idx : List Nat) :
    Nat → List Char → Nat → Nat → Option (Option Nat)
  | 0, _, _, _ => none
  | fuel + 1, revpat, top_pointer, bottom_pointer =>
    if top_pointer ≤ bottom_pointer then
      match revpat with
      | [] => some (some (bottom_pointer - top_pointer + 1))
      | symbol :: rest =>
        if bottom_pointer < lastcol_str.length then
          let current_positions :=
            (List.range' top_pointer (bottom_pointer + 1 - top_pointer)).filter
              (fun i => decide (charAt lastcol_str i = symbol))
          match current_positions with
          | [] => some (some 0)
          | p :: ps =>
            if p < last_to_first_idx.length ∧
                (p :: ps).getLast (List.cons_ne_nil p ps) < last_to_first_idx.length then
              bw_matching_loop_checked lastcol_str last_to_first_idx fuel rest
                (last_to_first_idx.getD p 0)
                (last_to_first_idx.getD ((p :: ps).getLast (List.cons_ne_nil p ps)) 0)
            else some none
        else some none
    else some (some 0)

/-- Error-aware `BWTProcessor.bw_matching` (see `bw_matching_loop_checked`):
the inner `none` is Python's uncaught `IndexError`. It agrees with the
Python function whenever the last column is nonempty, so that the
initial `bottom_pointer = len(lastcol_str) - 1` matches the Python
integer. -/
def bw_matching_checked (firstcol_str lastcol_str pattern : List Char)
    (last_to_first_idx : List Nat) : Option (Option Nat) :=
  bw_matching_loop_checked lastcol_str last_to_first_idx (pattern.length + 1)
    pattern.reverse 0 (lastcol_str.length - 1)

/-- The naive overlapping-occurrence counter of
`BWTProcessor.benchmark_search_methods`:
`sum(1 for i in range(len(text) - len(pattern) + 1) if text[i:i+len(pattern)] == pattern)`.
This is the match-count oracle of the specification. -/
def naive_count (text pattern : List Char) : Nat :=
  (List.range (text.length - pattern.length + 1)).countP
    (fun i => decide ((text.drop i).take pattern.length = pattern))

/-- The local helper `count_runs` of `BWTProcessor.analyze_compression`:
number of maximal runs of equal adjacent characters. -/
def count_runs : List Char → Nat
  | [] => 0
  | [_] => 1
  | a :: b :: rest => (if a = b then 0 else 1) + count_runs (b :: rest)

/-- Result record of `BWTProcessor.analyze_compression`. The two entropy
fields of the Python dict are floating-point quantities (`math.log2`) and
are outside the exact model; the run statistics and the guarded ratio are
modelled exactly, with the ratio in `ℚ`. -/
structure CompressionStats where
  original_length : Nat
  bwt_length : Nat
  original_runs : Nat
  bwt_runs : Nat
  run_reduction_ratio : ℚ
deriving DecidableEq

/-- `BWTProcessor.analyze_compression` (exact fields):
`run_reduction_ratio = bwt_runs / original_runs if original_runs > 0 else 0`. -/
def analyze_compression (text : List Char) : CompressionStats :=
  let bwt_result := bwt text
  let original_runs := count_runs text
  let bwt_runs := count_runs bwt_result
  ⟨text.length, bwt_result.length, original_runs, bwt_runs,
    if original_runs > 0 then (bwt_runs : ℚ) / (original_runs : ℚ) else 0⟩

/-- One cyclic rotation of `T` by `k` (`S[i:] + S[:i]` in the source). -/
def rot (T : List Char) (k : Nat) : List Char :=
  T.drop k ++ T.take k

/-- Rotating a string one step to the right: last character to the front.
This is the cyclic-predecessor operation underlying the LF-mapping. -/
def rotR (w : List Char) : List Char :=
  w.getLastD sentinel :: w.dropLast

/-- The string `Q` is an initial segment of `u`. -/
def pfx (Q u : List Char) : Prop :=
  u.take Q.length = Q

instance : DecidableRel pfx := fun Q u =>
  inferInstanceAs (Decidable (u.take Q.length = Q))

-- Sanity checks against the worked examples in the Python docstrings.
example : bwt "ACAGTGAT".toList = "T$CGATAAG".toList := by decide
example : invert_bwt "T$CGATAAG".toList = some "ACAGTGAT".toList := by decide
example : bwa_search "TCGACGAT".toList "CGA".toList = some 2 := by decide
example : bwa_search "ABCD".toList "XYZ".toList = some 0 := by decide

/-! ### Basic facts about the lexicographic comparison -/

theorem strLt_irrefl (a : List Char) : strLt a a = false := by
  induction a with
  | nil => rfl
  | cons x xs ih => simp [strLt, ih]

theorem strLt_cons_iff (x y : Char) (xs ys : List Char) :
    strLt (x :: xs) (y :: ys) = true ↔ (x < y ∨ (x = y ∧ strLt xs ys = true)) := by
  by_cases h1 : x < y
  · simp [strLt, h1]
  · by_cases h2 : y < x
    · have hne : x ≠ y := ne_of_gt h2
      simp [strLt, h1, h2, hne]
    · have heq : x = y := le_antisymm (not_lt.mp h2) (not_lt.mp h1)
      simp [strLt, h1, h2, heq]

theorem strLt_cons_false_iff (x y : Char) (xs ys : List Char) :
    strLt (x :: xs) (y :: ys) = false ↔ (y < x ∨ (x = y ∧ strLt xs ys = false)) := by
  rw [← Bool.not_eq_true, strLt_cons_iff]
  constructor
  · intro h
    push_neg at h
    rcases lt_trichotomy x y with h3 | h3 | h3
    · exact absurd h3 (not_lt.mpr h.1)
    · exact Or.inr ⟨h3, by simpa using h.2 h3⟩
    · exact Or.inl h3
  · rintro (h | ⟨rfl, h⟩)
    · rintro (h3 | ⟨rfl, _⟩)
      · exact absurd h3 (asymm h)
      · exact lt_irrefl _ h
    · rintro (h3 | ⟨-, h4⟩)
      · exact lt_irrefl _ h3
      · simp [h] at h4

theorem strLt_antisymm : ∀ a b : List Char,
    strLt a b = false → strLt b a = false → a = b
  | [], [], _, _ => rfl
  | [], _ :: _, hab, _ => by simp [strLt] at hab
  | _ :: _, [], _, hba => by simp [strLt] at hba
  | x :: xs, y :: ys, hab, hba => by
    rcases (strLt_cons_false_iff x y xs ys).mp hab with h | ⟨heq, h⟩
    · rcases (strLt_cons_false_iff y x ys xs).mp hba with h' | ⟨heq', h'⟩
      · exact absurd h' (asymm h)
      · subst heq'
        exact absurd h (lt_irrefl _)
    · subst heq
      rcases (strLt_cons_false_iff x x ys xs).mp hba with h' | ⟨-, h'⟩
      · exact absurd h' (lt_irrefl x)
      · rw [strLt_antisymm xs ys h h']

theorem strLt_trans : ∀ a b c : List Char,
    strLt a b = true → strLt b c = true → strLt a c = true
  | _, [], _, hab, _ => by simp [strLt] at hab
  | _, _ :: _, [], _, hbc => by simp [strLt] at hbc
  | [], _ :: _, _ :: _, _, _ => by simp [strLt]
  | x :: xs, y :: ys, z :: zs, hab, hbc => by
    rcases (strLt_cons_iff x y xs ys).mp hab with h | ⟨heq, h⟩
    · rcases (strLt_cons_iff y z ys zs).mp hbc with h' | ⟨heq', h'⟩
      · exact (strLt_cons_iff x z xs zs).mpr (Or.inl (lt_trans h h'))
      · exact (strLt_cons_iff x z xs zs).mpr (Or.inl (heq' ▸ h))
    · subst heq
      rcases (strLt_cons_iff x z ys zs).mp hbc with h' | ⟨heq', h'⟩
      · exact (strLt_cons_iff x z xs zs).mpr (Or.inl h')
      · subst heq'
        exact (strLt_cons_iff x x xs zs).mpr (Or.inr ⟨rfl, strLt_trans xs ys zs h h'⟩)

theorem strLt_asymm (a b : List Char) (h : strLt a b = true) : strLt b a = false := by
  by_contra h'
  have := strLt_trans a b a h (Bool.of_not_eq_false h')
  simp [strLt_irrefl] at this

instance : IsTotal (List Char) strLe :=
  ⟨fun a b => by
    by_cases h : strLt b a = true
    · exact Or.inr (strLt_asymm b a h)
    · exact Or.inl (Bool.of_not_eq_true h)⟩

instance : IsTrans (List Char) strLe :=
  ⟨fun a b c hab hbc => by
    by_contra h'
    have hca : strLt c a = true := Bool.of_not_eq_false h'
    by_cases hab' : strLt a b = true
    · have : strLt c b = true := strLt_trans c a b hca hab'
      simp [strLe, this] at hbc
    · have heq : a = b := strLt_antisymm a b (Bool.of_not_eq_true hab') hab
      subst heq
      simp only [strLe] at hbc
      rw [hbc] at hca
      simp at hca⟩

instance : IsAntisymm (List Char) strLe :=
  ⟨fun a b hab hba => strLt_antisymm a b hba hab⟩

theorem strLe_refl (a : List Char) : strLe a a := strLt_irrefl a

theorem strLe_of_strLt {a b : List Char} (h : strLt a b = true) : strLe a b :=
  strLt_asymm a b h

theorem strLt_of_strLe_of_ne {a b : List Char} (h : strLe a b) (hne : a ≠ b) :
    strLt a b = true := by
  by_contra h'
  exact hne (strLt_antisymm a b (Bool.of_not_eq_true h') h)

/-- Appending one character to two distinct strings of equal length does not
change how they compare. -/
theorem strLt_append_singleton : ∀ (a b : List Char) (x y : Char),
    a.length = b.length → a ≠ b → strLt (a ++ [x]) (b ++ [y]) = strLt a b
  | [], [], _, _, _, hne => absurd rfl hne
  | [], _ :: _, _, _, hlen, _ => by simp at hlen
  | _ :: _, [], _, _, hlen, _ => by simp at hlen
  | p :: a, q :: b, x, y, hlen, hne => by
    by_cases h1 : p < q
    · simp [strLt, h1]
    · by_cases h2 : q < p
      · simp [strLt, h1, h2]
      · have heq : p = q := le_antisymm (not_lt.mp h2) (not_lt.mp h1)
        subst heq
        have hlen' : a.length = b.length := by simpa using hlen
        have hne' : a ≠ b := fun h => hne (by rw [h])
        simp only [List.cons_append, strLt, h1, if_false]
        exact strLt_append_singleton a b x y hlen' hne'

/-! ### Generic helper lemmas -/

theorem map_getD_range {α : Type} (l : List α) (d : α) :
    (List.range l.length).map (fun i => l.getD i d) = l := by
  apply List.ext_getElem
  · simp
  · intro i h1 h2
    simp only [List.getElem_map, List.getElem_range]
    exact List.getD_eq_getElem l d h2

theorem getLastD_eq_getElem (w : List Char) (d : Char) (hw : w ≠ []) :
    w.getLastD d = w.get ⟨w.length - 1, by
      have := List.length_pos.mpr hw; omega⟩ := by
  rw [List.getLastD_eq_getLast?, List.getLast?_eq_getElem?]
  rw [List.getElem?_eq_getElem]
  rfl

theorem countP_or_split {α : Type} (p q : α → Bool) (l : List α)
    (hdisj : ∀ a ∈ l, ¬(p a = true ∧ q a = true)) :
    l.countP (fun a => p a || q a) = l.countP p + l.countP q := by
  induction l with
  | nil => simp
  | cons a l ih =>
    have hd : ∀ b ∈ l, ¬(p b = true ∧ q b = true) := fun b hb => hdisj b (List.mem_cons_of_mem a hb)
    by_cases hp : p a = true
    · have hq : q a = false := by
        by_cases h : q a = true
        · exact absurd ⟨hp, h⟩ (hdisj a (List.mem_cons_self a l))
        · exact Bool.of_not_eq_true h
      simp [List.countP_cons, hp, hq, ih hd]
      omega
    · have hp' : p a = false := Bool.of_not_eq_true hp
      simp [List.countP_cons, hp', ih hd]
      by_cases hq : q a = true <;> simp [hq] <;> omega

theorem countP_range_ge (n top : Nat) :
    (List.range n).countP (fun j => decide (top ≤ j)) = n - top := by
  induction n with
  | zero => simp
  | succ m ih =>
    rw [List.range_succ, List.countP_append, ih]
    by_cases h : top ≤ m <;> simp [List.countP_cons, h] <;> omega

theorem countP_range_interval (n top bottom : Nat) (htb : top ≤ bottom)
    (hbn : bottom < n) :
    (List.range n).countP (fun j => decide (top ≤ j ∧ j ≤ bottom)) = bottom - top + 1 := by
  have hn : n = (bottom + 1) + (n - bottom - 1) := by omega
  rw [hn, List.range_add, List.countP_append]
  have h1 : (List.range (bottom + 1)).countP (fun j => decide (top ≤ j ∧ j ≤ bottom)) =
      (List.range (bottom + 1)).countP (fun j => decide (top ≤ j)) := by
    apply List.countP_congr
    intro a ha
    have := List.mem_range.mp ha
    simp
    omega
  have h2 : (((List.range (n - bottom - 1)).map (bottom + 1 + ·)).countP
      (fun j => decide (top ≤ j ∧ j ≤ bottom))) = 0 := by
    rw [List.countP_eq_zero]
    intro a ha
    rcases List.mem_map.mp ha with ⟨k, -, rfl⟩
    simp
    omega
  rw [h1, h2, countP_range_ge]
  omega

/-! ### Rotations -/

theorem rot_length (T : List Char) (k : Nat) : (rot T k).length = T.length := by
  simp [rot]
  omega

theorem rot_zero (T : List Char) : rot T 0 = T := by
  simp [rot]

theorem rot_eq_rotate (T : List Char) (k : Nat) (h : k ≤ T.length) :
    rot T k = T.rotate k :=
  (List.rotate_eq_drop_append_take h).symm

theorem charAt_eq_getElem (l : List Char) (i : Nat) (h : i < l.length) :
    charAt l i = l[i] :=
  List.getD_eq_getElem l sentinel h

theorem charAt_rot (T : List Char) (k i : Nat) (hk : k ≤ T.length)
    (hi : i < T.length) :
    charAt (rot T k) i = charAt T ((i + k) % T.length) := by
  rw [rot_eq_rotate T k hk]
  have h1 : i < (T.rotate k).length := by simpa using hi
  rw [charAt_eq_getElem _ _ h1, charAt_eq_getElem _ _ (Nat.mod_lt _ (by omega))]
  exact List.getElem_rotate T k i h1

theorem getLastD_eq_charAt (w : List Char) (hw : w ≠ []) :
    w.getLastD sentinel = charAt w (w.length - 1) := by
  have hpos : 0 < w.length := List.length_pos.mpr hw
  rw [getLastD_eq_getElem w sentinel hw, charAt_eq_getElem w _ (by omega),
    List.get_eq_getElem]

theorem rot_ne_nil (T : List Char) (k : Nat) (hT : T ≠ []) : rot T k ≠ [] := by
  intro h
  have := rot_length T k
  rw [h] at this
  exact hT (List.length_eq_zero.mp this.symm)

theorem lastCh_rot (T : List Char) (k : Nat) (hk : k ≤ T.length) (hT : T ≠ []) :
    (rot T k).getLastD sentinel = charAt T ((T.length - 1 + k) % T.length) := by
  have hpos : 0 < T.length := List.length_pos.mpr hT
  rw [getLastD_eq_charAt _ (rot_ne_nil T k hT), rot_length,
    charAt_rot T k (T.length - 1) hk (by omega)]

theorem headCh_rot (T : List Char) (k : Nat) (hk : k < T.length) :
    charAt (rot T k) 0 = charAt T k := by
  rw [charAt_rot T k 0 (le_of_lt hk) (by omega)]
  simp [Nat.mod_eq_of_lt hk]

theorem map_add_mod_range (n m : Nat) :
    (List.range n).map (fun k => (k + m) % n) = (List.range n).rotate m := by
  apply List.ext_getElem
  · simp
  · intro i h1 h2
    simp only [List.getElem_map, List.getElem_range]
    rw [List.getElem_rotate]
    simp

/-! ### Structure of the transform -/

theorem cyclic_rotations_eq (text : List Char) :
    cyclic_rotations text =
      (List.range (text ++ [sentinel]).length).map (rot (text ++ [sentinel])) := by
  simp [cyclic_rotations, rot]

theorem lexsort_perm (l : List (List Char)) : List.Perm (lexsort_list l) l :=
  List.perm_insertionSort _ _

theorem lexsort_sorted (l : List (List Char)) : List.Sorted strLe (lexsort_list l) :=
  List.sorted_insertionSort _ _

theorem lexsort_length (l : List (List Char)) : (lexsort_list l).length = l.length :=
  (lexsort_perm l).length_eq

theorem bwt_length (text : List Char) : (bwt text).length = text.length + 1 := by
  simp [bwt, lexsort_list, List.length_insertionSort, cyclic_rotations]

theorem bwt_perm (text : List Char) : List.Perm (bwt text) (text ++ [sentinel]) := by
  set T := text ++ [sentinel] with hT
  have hTne : T ≠ [] := by simp [hT]
  have hTpos : 0 < T.length := List.length_pos.mpr hTne
  have h1 : List.Perm (bwt text) ((cyclic_rotations text).map (fun w => w.getLastD sentinel)) :=
    (lexsort_perm (cyclic_rotations text)).map _
  refine h1.trans ?_
  rw [cyclic_rotations_eq, List.map_map]
  have h2 : (List.range T.length).map ((fun w => w.getLastD sentinel) ∘ rot T) =
      (List.range T.length).map (fun k => charAt T ((k + (T.length - 1)) % T.length)) := by
    apply List.map_congr_left
    intro k hk
    have hk' : k < T.length := List.mem_range.mp hk
    simp only [Function.comp]
    rw [lastCh_rot T k (le_of_lt hk') hTne]
    congr 1
    rw [Nat.add_comm]
  rw [h2]
  have h3 : (List.range T.length).map (fun k => charAt T ((k + (T.length - 1)) % T.length)) =
      ((List.range T.length).map (fun k => (k + (T.length - 1)) % T.length)).map (charAt T) := by
    rw [List.map_map]
    rfl
  rw [h3, map_add_mod_range]
  have h4 : List.Perm (((List.range T.length).rotate (T.length - 1)).map (charAt T))
      ((List.range T.length).map (charAt T)) :=
    (List.rotate_perm _ _).map _
  refine h4.trans ?_
  have h5 : (List.range T.length).map (charAt T) = T := map_getD_range T sentinel
  rw [h5]

theorem bwt_sorted_eq (text : List Char) :
    last_to_first_string (bwt text) = last_to_first_string (text ++ [sentinel]) :=
  List.eq_of_perm_of_sorted
    ((List.perm_insertionSort _ _).trans ((bwt_perm text).trans
      (List.perm_insertionSort _ _).symm))
    (List.sorted_insertionSort _ _) (List.sorted_insertionSort _ _)

/-! ### Easy claims: output shape, degenerate cases, error behaviour -/

/-- C4: for every string `S`, the transform output `bwt S` has length
`len S + 1` and is a permutation of `S` with the sentinel appended:
sorting either side gives the same string. -/
theorem bwt_length_and_permutation (S : List Char) :
    (bwt S).length = S.length + 1 ∧
      last_to_first_string (bwt S) = last_to_first_string (S ++ [sentinel]) :=
  ⟨bwt_length S, bwt_sorted_eq S⟩

/-- C5 (counterexample): on input `"$"`, which already contains the
sentinel, `bwt` raises no error and returns the ordinary last column
`"$$"` of the sorted rotations of `"$$"`. -/
theorem bwt_accepts_sentinel_input : bwt [sentinel] = [sentinel, sentinel] := by
  decide

/-- C5 (amended): `bwt` performs no sentinel validation: even when the
input contains the sentinel it returns the last column of the sorted
rotations of `text + "$"`, of length `len text + 1` and a permutation of
`text + "$"`, rather than failing. -/
theorem bwt_no_validation_on_sentinel_input (text : List Char)
    (h : sentinel ∈ text) :
    (bwt text).length = text.length + 1 ∧
      last_to_first_string (bwt text) = last_to_first_string (text ++ [sentinel]) :=
  ⟨bwt_length text, bwt_sorted_eq text⟩

theorem bwt_no_validation_on_sentinel_input_witness :
    (bwt [sentinel]).length = 2 ∧
      last_to_first_string (bwt [sentinel]) =
        last_to_first_string ([sentinel] ++ [sentinel]) :=
  bwt_no_validation_on_sentinel_input [sentinel] (by decide)

/-- C6 (counterexample): on `"$$"`, whose sentinel occurs twice,
`invert_bwt` does not fail: it succeeds and returns the empty string. -/
theorem invert_bwt_accepts_double_sentinel :
    invert_bwt [sentinel, sentinel] = some [] := by
  decide

/-- C6 (amended): `invert_bwt` fails exactly when the sentinel occurs
zero times in its input; with at least one occurrence (including more
than one) it succeeds, starting its walk at the first occurrence. -/
theorem invert_bwt_fails_iff_no_sentinel (L : List Char) :
    invert_bwt L = none ↔ sentinel ∉ L := by
  unfold invert_bwt
  split
  · next h => simp [h]
  · next h => simp [h]

/-- C10: `analyze_compression` is total, and on the empty string returns
`original_runs = 0`, `bwt_runs = 1` (the BWT of `""` is `"$"`), and the
guarded `run_reduction_ratio = 0` instead of a division-by-zero error. -/
theorem analyze_compression_empty_input :
    analyze_compression [] = ⟨0, 1, 0, 1, 0⟩ ∧ bwt [] = [sentinel] := by
  constructor
  · rfl
  · rfl

/-- C9 (counterexample): `bw_matching` is not a total function on
arbitrary LF arrays. On `firstcol = "A"`, `lastcol = "A"`,
`pattern = "A"`, `last_to_first_idx = []`, the Python code finds the
match position 0 and then evaluates
`last_to_first_idx[current_positions[0]]`, raising an uncaught
`IndexError` (inner `none`), so no count is returned. -/
theorem bw_matching_raises_on_short_lf :
    bw_matching_checked ['A'] ['A'] ['A'] [] = some none := by decide

theorem bw_matching_loop_checked_total (lastcol : List Char) (lf : List Nat)
    (hlen : lastcol.length ≤ lf.length) (hlf : ∀ x ∈ lf, x < lastcol.length) :
    ∀ (revpat : List Char) (top bottom : Nat), bottom < lastcol.length →
      ∃ count, bw_matching_loop_checked lastcol lf (revpat.length + 1) revpat top bottom =
        some (some count) := by
  intro revpat
  induction revpat with
  | nil =>
    intro top bottom hb
    by_cases htb : top ≤ bottom
    · rw [bw_matching_loop_checked, if_pos htb]
      exact ⟨bottom - top + 1, rfl⟩
    · rw [bw_matching_loop_checked, if_neg htb]
      exact ⟨0, rfl⟩
  | cons c rest ih =>
    intro top bottom hb
    by_cases htb : top ≤ bottom
    · rw [bw_matching_loop_checked]
      simp only [if_pos htb, if_pos hb]
      cases hpos : (List.range' top (bottom + 1 - top)).filter
          (fun i => decide (charAt lastcol i = c)) with
      | nil =>
        simp only [hpos]
        exact ⟨0, rfl⟩
      | cons p ps =>
        simp only [hpos]
        have hp_mem : p ∈ (List.range' top (bottom + 1 - top)).filter
            (fun i => decide (charAt lastcol i = c)) := by
          rw [hpos]
          exact List.mem_cons_self p ps
        have hq_mem : (p :: ps).getLast (List.cons_ne_nil p ps) ∈
            (List.range' top (bottom + 1 - top)).filter
              (fun i => decide (charAt lastcol i = c)) := by
          rw [hpos]
          exact List.getLast_mem (List.cons_ne_nil p ps)
        have hp_le : p ≤ bottom := by
          have h2 := List.mem_range'_1.mp (List.mem_filter.mp hp_mem).1
          omega
        have hq_le : (p :: ps).getLast (List.cons_ne_nil p ps) ≤ bottom := by
          have h2 := List.mem_range'_1.mp (List.mem_filter.mp hq_mem).1
          omega
        have hplt : p < lf.length := by omega
        have hqlt : (p :: ps).getLast (List.cons_ne_nil p ps) < lf.length := by omega
        rw [if_pos ⟨hplt, hqlt⟩]
        apply ih
        rw [List.getD_eq_getElem lf 0 hqlt]
        exact hlf _ (List.getElem_mem hqlt)
    · rw [bw_matching_loop_checked, if_neg htb]
      exact ⟨0, rfl⟩

/-- C9 (amended): the `while` loop of `bw_matching` always terminates,
since each iteration either returns or consumes one pattern symbol, so
`len pattern + 1` iterations suffice; but the function is total only on
in-bounds inputs. For every nonempty last column, LF array at least as
long as the last column with every entry an index into it — as holds for
the arrays `bwa_search` builds — and any pattern, `bw_matching` returns
a count and never raises `IndexError`; with shorter or out-of-range LF
arrays it can raise (see `bw_matching_raises_on_short_lf`). -/
theorem bw_matching_checked_terminates (firstcol_str lastcol_str pattern : List Char)
    (last_to_first_idx : List Nat) (hne : lastcol_str ≠ [])
    (hlen : lastcol_str.length ≤ last_to_first_idx.length)
    (hlf : ∀ x ∈ last_to_first_idx, x < lastcol_str.length) :
    ∃ count, bw_matching_checked firstcol_str lastcol_str pattern last_to_first_idx =
      some (some count) := by
  have hpos : 0 < lastcol_str.length := List.length_pos.mpr hne
  have h := bw_matching_loop_checked_total lastcol_str last_to_first_idx hlen hlf
    pattern.reverse 0 (lastcol_str.length - 1) (by omega)
  rw [List.length_reverse] at h
  exact h

/-- Witness for `bw_matching_checked_terminates` at the in-bounds input
`lastcol = "A$"` (the BWT of `"A"`), `lf = [1, 0]` (its LF-mapping),
`pattern = "A"`. -/
theorem bw_matching_checked_terminates_witness :
    (['A', sentinel] : List Char) ≠ [] ∧
      (['A', sentinel] : List Char).length ≤ ([1, 0] : List Nat).length ∧
      (∀ x ∈ ([1, 0] : List Nat), x < (['A', sentinel] : List Char).length) ∧
      ∃ count, bw_matching_checked ['A', sentinel] ['A', sentinel] ['A'] [1, 0] =
        some (some count) :=
  ⟨by decide, by decide, by decide,
    bw_matching_checked_terminates ['A', sentinel] ['A', sentinel] ['A'] [1, 0]
      (by decide) (by decide) (by decide)⟩

/-- C7: searching with the empty pattern is a defined return value: the
full row-range size `len S + 1`. -/
theorem bwa_search_empty_pattern (S : List Char) (hS : sentinel ∉ S) :
    bwa_search S [] = some (S.length + 1) := by
  have h : bwa_search S [] =
      bw_matching_loop (bwt S) (last_to_first_index (bwt S)) 1 [] 0 ((bwt S).length - 1) := rfl
  rw [h, bw_matching_loop, if_pos (Nat.zero_le _), bwt_length]
  simp

theorem bwa_search_empty_pattern_witness : bwa_search ['A'] [] = some 2 :=
  bwa_search_empty_pattern ['A'] (by decide)

/-- C2 (counterexample): for `S = "A"` and the nonempty pattern `"$"`,
`bwa_search` returns 1 although `"$"` occurs 0 times in `"A"` — the
backward search counts the sentinel row of `S + "$"`. -/
theorem bwa_search_counts_sentinel_pattern :
    bwa_search ['A'] [sentinel] = some 1 ∧ naive_count ['A'] [sentinel] = 0 := by
  decide

/-- C8 (counterexample): the sentinel is a symbol absent from `"AC"`,
yet searching for the pattern `"$"` returns 1, not 0. -/
theorem bwa_search_foreign_sentinel_nonzero :
    sentinel ∉ ['A', 'C'] ∧ sentinel ∈ [sentinel] ∧
      bwa_search ['A', 'C'] [sentinel] = some 1 := by
  decide

/-! ### Counting machinery for sorted columns and position lists -/

theorem take_range_eq (p n : Nat) (h : p ≤ n) : (List.range n).take p = List.range p := by
  apply List.ext_getElem
  · simp
    omega
  · intro i h1 h2
    simp

theorem map_charAt_range (L : List Char) : (List.range L.length).map (charAt L) = L :=
  map_getD_range L sentinel

theorem take_eq_map_range (L : List Char) (p : Nat) (h : p ≤ L.length) :
    L.take p = (List.range p).map (charAt L) := by
  conv_lhs => rw [← map_charAt_range L]
  rw [← List.map_take, take_range_eq p L.length h]

theorem count_take_eq_countP_range (L : List Char) (c : Char) (p : Nat)
    (h : p ≤ L.length) :
    (L.take p).count c = (List.range p).countP (fun j => decide (charAt L j = c)) := by
  rw [take_eq_map_range L p h, List.count, List.countP_map]
  apply List.countP_congr
  intro a _
  simp [Function.comp]

theorem count_take_succ_self (L : List Char) (i : Nat) (hi : i < L.length) :
    (L.take (i + 1)).count (charAt L i) = (L.take i).count (charAt L i) + 1 := by
  rw [charAt_eq_getElem L i hi, List.take_succ, List.getElem?_eq_getElem hi,
    List.count_append]
  simp

theorem sorted_getElem_le (M : List Char) (hM : List.Sorted (· ≤ ·) M) (i j : Nat)
    (hij : i ≤ j) (hi : i < M.length) (hj : j < M.length) : M[i] ≤ M[j] := by
  rcases Nat.eq_or_lt_of_le hij with rfl | hlt
  · exact le_refl _
  · exact (List.pairwise_iff_getElem.mp hM) i j hi hj hlt

/-- In a `≤`-sorted list, position `j` holds a character below `c` exactly
when `j` is below the number of characters below `c`. -/
theorem sorted_lt_iff_lt_countP (M : List Char) (hM : List.Sorted (· ≤ ·) M)
    (c : Char) (j : Nat) (hj : j < M.length) :
    M[j] < c ↔ j < M.countP (fun x => decide (x < c)) := by
  constructor
  · intro h
    have h1 : (M.take (j + 1)).countP (fun x => decide (x < c)) = (M.take (j + 1)).length := by
      rw [List.countP_eq_length]
      intro a ha
      obtain ⟨t, ht, rfl⟩ := List.getElem_of_mem ha
      have ht' : t ≤ j := by
        have := ht
        simp at this
        omega
      have htM : t < M.length := by omega
      simp only [List.getElem_take]
      have hle : M[t] ≤ M[j] := sorted_getElem_le M hM t j ht' htM hj
      simp [lt_of_le_of_lt hle h]
    have h2 := List.countP_append (fun x => decide (x < c)) (M.take (j + 1)) (M.drop (j + 1))
    rw [List.take_append_drop] at h2
    have h3 : (M.take (j + 1)).length = j + 1 := by
      simp
      omega
    omega
  · intro h
    by_contra hc
    push_neg at hc
    have h2 : (M.drop j).countP (fun x => decide (x < c)) = 0 := by
      rw [List.countP_eq_zero]
      intro a ha
      obtain ⟨t, ht, rfl⟩ := List.getElem_of_mem ha
      simp only [List.getElem_drop]
      have hjt : j + t < M.length := by
        have := ht
        simp at this
        omega
      have hle : M[j] ≤ M[j + t] := sorted_getElem_le M hM j (j + t) (by omega) (by omega) hjt
      simp
      exact le_trans hc hle
    have h4 := List.countP_append (fun x => decide (x < c)) (M.take j) (M.drop j)
    rw [List.take_append_drop] at h4
    have h5 : (M.take j).countP (fun x => decide (x < c)) ≤ j := by
      calc (M.take j).countP (fun x => decide (x < c)) ≤ (M.take j).length :=
        List.countP_le_length _
      _ ≤ j := by simp
    omega

theorem count_take_le_sub (M : List Char) (hM : List.Sorted (· ≤ ·) M) (c : Char)
    (p : Nat) (hp : p ≤ M.length) :
    (M.take p).count c ≤ p - M.countP (fun x => decide (x < c)) := by
  set d := M.countP (fun x => decide (x < c)) with hd
  by_cases hpd : p ≤ d
  · have h0 : (M.take p).count c = 0 := by
      rw [List.count_eq_zero]
      intro hmem
      obtain ⟨t, ht, heq⟩ := List.getElem_of_mem hmem
      have htp : t < p := by
        have := ht
        simp at this
        omega
      have htM : t < M.length := by
        have := ht
        simp at this
        omega
      have hlt : M[t] < c := by
        rw [sorted_lt_iff_lt_countP M hM c t htM, ← hd]
        omega
      rw [List.getElem_take] at heq
      rw [heq] at hlt
      exact lt_irrefl c hlt
    omega
  · push_neg at hpd
    have hsplit : (M.take p).count c =
        ((M.take p).take d).count c + ((M.take p).drop d).count c := by
      rw [← List.count_append, List.take_append_drop]
    have htake : (M.take p).take d = M.take d := by
      rw [List.take_take, Nat.min_eq_left (le_of_lt hpd)]
    have h0 : (M.take d).count c = 0 := by
      rw [List.count_eq_zero]
      intro hmem
      obtain ⟨t, ht, heq⟩ := List.getElem_of_mem hmem
      have htd : t < d := by
        have := ht
        simp at this
        omega
      have htM : t < M.length := by
        have hdM : d ≤ M.length := by rw [hd]; exact List.countP_le_length _
        omega
      have hlt : M[t] < c := by
        rw [sorted_lt_iff_lt_countP M hM c t htM, ← hd]
        omega
      rw [List.getElem_take] at heq
      rw [heq] at hlt
      exact lt_irrefl c hlt
    have hlen : ((M.take p).drop d).count c ≤ p - d := by
      calc ((M.take p).drop d).count c ≤ ((M.take p).drop d).length :=
            List.count_le_length _ _
        _ ≤ p - d := by simp; omega
    rw [hsplit, htake, h0]
    omega

/-- Occurrences of `c` in a sorted list fill a contiguous block: every
position in `[countP (< c), countP (< c) + count c)` holds `c`. -/
theorem sorted_block_eq (M : List Char) (hM : List.Sorted (· ≤ ·) M) (c : Char)
    (j : Nat) (hj : j < M.length)
    (h1 : M.countP (fun x => decide (x < c)) ≤ j)
    (h2 : j < M.countP (fun x => decide (x < c)) + M.count c) :
    M[j] = c := by
  set d := M.countP (fun x => decide (x < c)) with hd
  have hge : c ≤ M[j] := by
    have := (sorted_lt_iff_lt_countP M hM c j hj).not
    rw [← hd] at this
    exact not_lt.mp (this.mpr (by omega))
  by_contra hne
  have hgt : c < M[j] := lt_of_le_of_ne hge (fun h => hne h.symm)
  have hdropzero : (M.drop j).count c = 0 := by
    rw [List.count_eq_zero]
    intro hmem
    obtain ⟨t, ht, heq⟩ := List.getElem_of_mem hmem
    have htM : j + t < M.length := by
      have := ht
      simp at this
      omega
    have hle : M[j] ≤ M[j + t] := sorted_getElem_le M hM j (j + t) (by omega) hj htM
    rw [List.getElem_drop] at heq
    rw [heq] at hle
    exact absurd (lt_of_lt_of_le hgt hle) (lt_irrefl c)
  have hsplit : M.count c = (M.take j).count c + (M.drop j).count c := by
    rw [← List.count_append, List.take_append_drop]
  have htakele : (M.take j).count c ≤ j - d := count_take_le_sub M hM c j (le_of_lt hj)
  omega

/-- Counting `c` in a prefix that ends inside the block of `c`s. -/
theorem sorted_count_take_block (M : List Char) (hM : List.Sorted (· ≤ ·) M)
    (c : Char) (p : Nat)
    (h1 : M.countP (fun x => decide (x < c)) ≤ p)
    (h2 : p ≤ M.countP (fun x => decide (x < c)) + M.count c)
    (hp : p ≤ M.length) :
    (M.take p).count c = p - M.countP (fun x => decide (x < c)) := by
  set d := M.countP (fun x => decide (x < c)) with hd
  have hsplit : (M.take p).count c =
      ((M.take p).take d).count c + ((M.take p).drop d).count c := by
    rw [← List.count_append, List.take_append_drop]
  have htake : (M.take p).take d = M.take d := by
    rw [List.take_take, Nat.min_eq_left h1]
  have h0 : (M.take d).count c = 0 := by
    rw [List.count_eq_zero]
    intro hmem
    obtain ⟨t, ht, heq⟩ := List.getElem_of_mem hmem
    have htd : t < d := by
      have := ht
      simp at this
      omega
    have htM : t < M.length := by
      have hdM : d ≤ M.length := by rw [hd]; exact List.countP_le_length _
      omega
    have hlt : M[t] < c := by
      rw [sorted_lt_iff_lt_countP M hM c t htM, ← hd]
      omega
    rw [List.getElem_take] at heq
    rw [heq] at hlt
    exact lt_irrefl c hlt
  have hfull : ((M.take p).drop d).count c = ((M.take p).drop d).length := by
    rw [List.count_eq_length]
    intro b hb
    obtain ⟨t, ht, heq⟩ := List.getElem_of_mem hb
    have htlen : d + t < p := by
      have := ht
      simp at this
      omega
    have hin : d + t < M.length := by omega
    rw [List.getElem_drop, List.getElem_take] at heq
    rw [← heq]
    exact (sorted_block_eq M hM c (d + t) hin (by omega) (by rw [← hd]; omega)).symm
  rw [hsplit, htake, h0, hfull]
  simp
  omega

/-- Converse of `sorted_block_eq`: a position holding `c` lies in the
contiguous block of `c`s. -/
theorem sorted_block_bounds (M : List Char) (hM : List.Sorted (· ≤ ·) M) (c : Char)
    (j : Nat) (hj : j < M.length) (hc : M[j] = c) :
    M.countP (fun x => decide (x < c)) ≤ j ∧
      j < M.countP (fun x => decide (x < c)) + M.count c := by
  set d := M.countP (fun x => decide (x < c)) with hd
  have h1 : d ≤ j := by
    have := (sorted_lt_iff_lt_countP M hM c j hj).not
    rw [← hd] at this
    by_contra hcon
    push_neg at hcon
    have := this.mp (by rw [hc]; exact lt_irrefl c)
    omega
  refine ⟨h1, ?_⟩
  have hseg : ∀ t, d ≤ t → t ≤ j → ∀ (ht : t < M.length), M[t] = c := by
    intro t htd htj ht
    have hge : c ≤ M[t] := by
      have := (sorted_lt_iff_lt_countP M hM c t ht).not
      rw [← hd] at this
      exact not_lt.mp (this.mpr (by omega))
    have hle : M[t] ≤ M[j] := sorted_getElem_le M hM t j htj ht hj
    rw [hc] at hle
    exact le_antisymm hle hge
  have hsplit : (M.take (j + 1)).count c =
      ((M.take (j + 1)).take d).count c + ((M.take (j + 1)).drop d).count c := by
    rw [← List.count_append, List.take_append_drop]
  have htake : (M.take (j + 1)).take d = M.take d := by
    rw [List.take_take, Nat.min_eq_left (by omega)]
  have h0 : (M.take d).count c = 0 := by
    rw [List.count_eq_zero]
    intro hmem
    obtain ⟨t, ht, heq⟩ := List.getElem_of_mem hmem
    have htd : t < d := by
      have := ht
      simp at this
      omega
    have htM : t < M.length := by
      have hdM : d ≤ M.length := by rw [hd]; exact List.countP_le_length _
      omega
    have hlt : M[t] < c := by
      rw [sorted_lt_iff_lt_countP M hM c t htM, ← hd]
      omega
    rw [List.getElem_take] at heq
    rw [heq] at hlt
    exact lt_irrefl c hlt
  have hfull : ((M.take (j + 1)).drop d).count c = ((M.take (j + 1)).drop d).length := by
    rw [List.count_eq_length]
    intro b hb
    obtain ⟨t, ht, heq⟩ := List.getElem_of_mem hb
    have htlen : d + t < j + 1 := by
      have := ht
      simp at this
      omega
    have hin : d + t < M.length := by omega
    rw [List.getElem_drop, List.getElem_take] at heq
    rw [← heq]
    exact (hseg (d + t) (by omega) (by omega) hin).symm
  have hlen2 : ((M.take (j + 1)).drop d).length = j + 1 - d := by
    simp
    omega
  have hcle : (M.take (j + 1)).count c ≤ M.count c :=
    (List.take_sublist _ _).count_le c
  rw [hsplit, htake, h0, hfull, hlen2] at hcle
  omega

theorem sorted_indexOf_eq : ∀ (M : List Char), List.Sorted (· ≤ ·) M →
    ∀ c : Char, c ∈ M → M.indexOf c = M.countP (fun x => decide (x < c))
  | [], _, c, hc => absurd hc (List.not_mem_nil c)
  | x :: M', hM, c, hc => by
    rcases List.sorted_cons.mp hM with ⟨hall, hM'⟩
    rw [List.indexOf_cons, List.countP_cons]
    by_cases hxc : x = c
    · have h0 : M'.countP (fun y => decide (y < c)) = 0 := by
        rw [List.countP_eq_zero]
        intro a ha
        simp only [decide_eq_true_eq]
        exact not_lt.mpr (hxc ▸ hall a ha)
      simp [hxc, h0]
    · have hcM' : c ∈ M' := by
        rcases List.mem_cons.mp hc with h | h
        · exact absurd h.symm hxc
        · exact h
      have hxlt : x < c := lt_of_le_of_ne (hall c hcM') hxc
      have hrec := sorted_indexOf_eq M' hM' c hcM'
      have hbeq : (x == c) = false := beq_eq_false_iff_ne.mpr hxc
      simp [hbeq, hxlt, hrec]

theorem filter_range_getD (q : Nat → Bool) :
    ∀ (n : Nat) (t : Nat), t < ((List.range n).filter q).length →
      q (((List.range n).filter q).getD t 0) = true ∧
      ((List.range n).filter q).getD t 0 < n ∧
      (List.range (((List.range n).filter q).getD t 0)).countP q = t := by
  intro n
  induction n with
  | zero =>
    intro t ht
    simp at ht
  | succ m ih =>
    intro t ht
    simp only [List.range_succ, List.filter_append] at ht ⊢
    by_cases htl : t < ((List.range m).filter q).length
    · rw [List.getD_append _ _ _ _ htl]
      obtain ⟨h1, h2, h3⟩ := ih t htl
      exact ⟨h1, by omega, h3⟩
    · push_neg at htl
      by_cases hqm : q m = true
      · have hfil : List.filter q [m] = [m] := by simp [List.filter_cons, hqm]
        rw [hfil] at ht ⊢
        rw [List.length_append, List.length_singleton] at ht
        have htl' : t = ((List.range m).filter q).length := by omega
        rw [List.getD_append_right _ _ _ _ (by omega), htl']
        simp only [Nat.sub_self, List.getD_cons_zero]
        refine ⟨hqm, by omega, ?_⟩
        rw [List.countP_eq_length_filter]
      · have hfil : List.filter q [m] = [] := by
          simp [List.filter_cons, hqm]
        rw [hfil] at ht
        rw [List.length_append, List.length_nil] at ht
        omega

theorem filter_range_pos_getD (q : Nat → Bool) :
    ∀ (n : Nat) (p : Nat), p < n → q p = true →
      (List.range p).countP q < ((List.range n).filter q).length ∧
      ((List.range n).filter q).getD ((List.range p).countP q) 0 = p := by
  intro n
  induction n with
  | zero =>
    intro p hp
    omega
  | succ m ih =>
    intro p hp hq
    simp only [List.range_succ, List.filter_append]
    by_cases hpm : p < m
    · obtain ⟨h1, h2⟩ := ih p hpm hq
      constructor
      · rw [List.length_append]
        omega
      · rw [List.getD_append _ _ _ _ h1]
        exact h2
    · have hpm' : p = m := by omega
      subst hpm'
      have hfil : List.filter q [p] = [p] := by simp [List.filter_cons, hq]
      rw [hfil]
      have hcnt : (List.range p).countP q = ((List.range p).filter q).length :=
        List.countP_eq_length_filter _ _
      constructor
      · rw [List.length_append, List.length_singleton, hcnt]
        omega
      · rw [hcnt, List.getD_append_right _ _ _ _ (le_refl _)]
        simp

theorem countP_lt_add_count_le_length (M : List Char) (c : Char) :
    M.countP (fun x => decide (x < c)) + M.count c ≤ M.length := by
  have hdisj : ∀ a ∈ M,
      ¬((fun x => decide (x < c)) a = true ∧ ((fun x => x == c) a) = true) := by
    intro a _ h
    obtain ⟨h1, h2⟩ := h
    rw [decide_eq_true_eq] at h1
    rw [beq_iff_eq] at h2
    subst h2
    exact lt_irrefl a h1
  rw [List.count_eq_countP, ← countP_or_split _ _ M hdisj]
  exact List.countP_le_length _

/-! ### The LF- and FL-mappings as occurrence bookkeeping -/

theorem first_length (L : List Char) : (last_to_first_string L).length = L.length :=
  (List.perm_insertionSort _ _).length_eq

theorem first_sorted (L : List Char) : List.Sorted (· ≤ ·) (last_to_first_string L) :=
  List.sorted_insertionSort _ _

theorem first_perm (L : List Char) : List.Perm (last_to_first_string L) L :=
  List.perm_insertionSort _ _

theorem first_count (L : List Char) (c : Char) :
    (last_to_first_string L).count c = L.count c :=
  (first_perm L).count_eq c

theorem first_countP (L : List Char) (p : Char → Bool) :
    (last_to_first_string L).countP p = L.countP p :=
  (first_perm L).countP_eq p

theorem last_to_first_index_getD (L : List Char) (i : Nat) (hi : i < L.length) :
    (last_to_first_index L).getD i 0 =
      (last_to_first_string L).indexOf (charAt L i) +
        (L.take (i + 1)).count (charAt L i) - 1 := by
  unfold last_to_first_index
  rw [List.getD_eq_getElem _ _ (by simpa using hi)]
  simp

theorem first_to_last_index_getD (L : List Char) (i : Nat) (hi : i < L.length) :
    (first_to_last_index L).getD i 0 =
      ((List.range L.length).filter
        (fun j => decide (charAt L j = charAt (last_to_first_string L) i))).getD
        (((last_to_first_string L).take (i + 1)).count
          (charAt (last_to_first_string L) i) - 1) 0 := by
  unfold first_to_last_index
  rw [List.getD_eq_getElem _ _ (by simpa using hi)]
  simp

theorem lf_getD_formula (L : List Char) (i : Nat) (hi : i < L.length) :
    (last_to_first_index L).getD i 0 =
      L.countP (fun x => decide (x < charAt L i)) +
        (L.take (i + 1)).count (charAt L i) - 1 := by
  rw [last_to_first_index_getD L i hi]
  have hmem : charAt L i ∈ last_to_first_string L := by
    rw [(first_perm L).mem_iff, charAt_eq_getElem L i hi]
    exact List.getElem_mem hi
  rw [sorted_indexOf_eq _ (first_sorted L) _ hmem, first_countP]

theorem count_take_pos (L : List Char) (i : Nat) (hi : i < L.length) :
    1 ≤ (L.take (i + 1)).count (charAt L i) := by
  rw [count_take_succ_self L i hi]
  omega

theorem count_take_le_count (L : List Char) (c : Char) (p : Nat) :
    (L.take p).count c ≤ L.count c :=
  (List.take_sublist _ _).count_le c

/-- The LF value of row `i` is inside the first-column block of the
character `L[i]`, at the position matching its occurrence rank. -/
theorem lf_getD_spec (L : List Char) (i : Nat) (hi : i < L.length) :
    (last_to_first_index L).getD i 0 < L.length ∧
    charAt (last_to_first_string L) ((last_to_first_index L).getD i 0) = charAt L i ∧
    ((last_to_first_string L).take ((last_to_first_index L).getD i 0 + 1)).count
        (charAt L i) = (L.take (i + 1)).count (charAt L i) := by
  set c := charAt L i with hc
  set d := L.countP (fun x => decide (x < c)) with hd
  set kL := (L.take (i + 1)).count c with hkL
  have hk1 : 1 ≤ kL := count_take_pos L i hi
  have hkcnt : kL ≤ L.count c := count_take_le_count L c (i + 1)
  have hcnt_len : d + L.count c ≤ L.length := countP_lt_add_count_le_length L c
  have hj : (last_to_first_index L).getD i 0 = d + kL - 1 := lf_getD_formula L i hi
  have hFd : (last_to_first_string L).countP (fun x => decide (x < c)) = d := first_countP L _
  have hFcnt : (last_to_first_string L).count c = L.count c := first_count L c
  have hFlen : (last_to_first_string L).length = L.length := first_length L
  have hjlt : (last_to_first_index L).getD i 0 < L.length := by omega
  refine ⟨hjlt, ?_, ?_⟩
  · have hblock := sorted_block_eq (last_to_first_string L) (first_sorted L) c
      (d + kL - 1) (by omega) (by omega) (by omega)
    rw [hj, charAt_eq_getElem _ _ (by omega)]
    exact hblock
  · have htake := sorted_count_take_block (last_to_first_string L) (first_sorted L) c
      (d + kL) (by omega) (by omega) (by omega)
    rw [hj]
    have harg : d + kL - 1 + 1 = d + kL := by omega
    rw [harg, htake, hFd]
    omega

theorem fl_lf_getD (L : List Char) (i : Nat) (hi : i < L.length) :
    (first_to_last_index L).getD ((last_to_first_index L).getD i 0) 0 = i := by
  obtain ⟨hjlt, hFj, hcnt⟩ := lf_getD_spec L i hi
  rw [first_to_last_index_getD L _ hjlt, hFj, hcnt]
  have hq : (fun j' => decide (charAt L j' = charAt L i)) i = true := by simp
  obtain ⟨hlt2, hgot⟩ :=
    filter_range_pos_getD (fun j' => decide (charAt L j' = charAt L i)) L.length i hi hq
  have hcountrange : (List.range i).countP (fun j' => decide (charAt L j' = charAt L i)) =
      (L.take i).count (charAt L i) :=
    (count_take_eq_countP_range L (charAt L i) i (le_of_lt hi)).symm
  rw [hcountrange] at hgot
  have harg : (L.take (i + 1)).count (charAt L i) - 1 = (L.take i).count (charAt L i) := by
    rw [count_take_succ_self L i hi]
    omega
  rw [harg]
  exact hgot

theorem lf_fl_getD (L : List Char) (i : Nat) (hi : i < L.length) :
    (last_to_first_index L).getD ((first_to_last_index L).getD i 0) 0 = i := by
  have hFlen : (last_to_first_string L).length = L.length := first_length L
  have hiF : i < (last_to_first_string L).length := by omega
  have hchF : (last_to_first_string L)[i] = charAt (last_to_first_string L) i :=
    (charAt_eq_getElem _ i hiF).symm
  have hbounds := sorted_block_bounds (last_to_first_string L) (first_sorted L)
    (charAt (last_to_first_string L) i) i hiF hchF
  have hcntF : (last_to_first_string L).count (charAt (last_to_first_string L) i) =
      L.count (charAt (last_to_first_string L) i) := first_count L _
  have hkF : ((last_to_first_string L).take (i + 1)).count (charAt (last_to_first_string L) i) =
      i + 1 - (last_to_first_string L).countP
        (fun x => decide (x < charAt (last_to_first_string L) i)) :=
    sorted_count_take_block (last_to_first_string L) (first_sorted L) _ (i + 1)
      (by omega) (by omega) (by omega)
  rw [first_to_last_index_getD L i hi, hkF]
  have hplen : ((List.range L.length).filter
      (fun j' => decide (charAt L j' = charAt (last_to_first_string L) i))).length =
      L.count (charAt (last_to_first_string L) i) := by
    rw [← List.countP_eq_length_filter,
      ← count_take_eq_countP_range L _ L.length (le_refl _), List.take_length]
  have hd' : (last_to_first_string L).countP
      (fun x => decide (x < charAt (last_to_first_string L) i)) ≤ i := hbounds.1
  have htlt : i + 1 - (last_to_first_string L).countP
      (fun x => decide (x < charAt (last_to_first_string L) i)) - 1 <
      ((List.range L.length).filter
        (fun j' => decide (charAt L j' = charAt (last_to_first_string L) i))).length := by
    rw [hplen]
    omega
  obtain ⟨hq1, hq2, hq3⟩ := filter_range_getD
    (fun j' => decide (charAt L j' = charAt (last_to_first_string L) i)) L.length _ htlt
  have hchp : charAt L (((List.range L.length).filter
      (fun j' => decide (charAt L j' = charAt (last_to_first_string L) i))).getD
        (i + 1 - (last_to_first_string L).countP
          (fun x => decide (x < charAt (last_to_first_string L) i)) - 1) 0) =
      charAt (last_to_first_string L) i := by simpa using hq1
  have hcp : (L.take (((List.range L.length).filter
      (fun j' => decide (charAt L j' = charAt (last_to_first_string L) i))).getD
        (i + 1 - (last_to_first_string L).countP
          (fun x => decide (x < charAt (last_to_first_string L) i)) - 1) 0)).count
        (charAt (last_to_first_string L) i) =
      i + 1 - (last_to_first_string L).countP
        (fun x => decide (x < charAt (last_to_first_string L) i)) - 1 := by
    rw [count_take_eq_countP_range L _ _ (le_of_lt hq2)]
    exact hq3
  rw [lf_getD_formula L _ hq2, hchp]
  have hLd : L.countP (fun x => decide (x < charAt (last_to_first_string L) i)) =
      (last_to_first_string L).countP
        (fun x => decide (x < charAt (last_to_first_string L) i)) :=
    (first_countP L _).symm
  have hsucc := count_take_succ_self L _ hq2
  rw [hchp] at hsucc
  rw [hLd, hsucc, hcp]
  omega

/-- C3: for every string `L`, the arrays `LF = last_to_first_index L` and
`FL = first_to_last_index L` are mutually inverse permutations:
`FL[LF[i]] = i` and `LF[FL[i]] = i` for all `i < len L`. -/
theorem lf_fl_mutually_inverse (L : List Char) (i : Nat) (hi : i < L.length) :
    (first_to_last_index L).getD ((last_to_first_index L).getD i 0) 0 = i ∧
    (last_to_first_index L).getD ((first_to_last_index L).getD i 0) 0 = i :=
  ⟨fl_lf_getD L i hi, lf_fl_getD L i hi⟩

theorem lf_fl_mutually_inverse_witness :
    (first_to_last_index ['A', 'B', 'A']).getD
        ((last_to_first_index ['A', 'B', 'A']).getD 1 0) 0 = 1 ∧
    (last_to_first_index ['A', 'B', 'A']).getD
        ((first_to_last_index ['A', 'B', 'A']).getD 1 0) 0 = 1 :=
  lf_fl_mutually_inverse ['A', 'B', 'A'] 1 (by decide)

/-! ### Rotations of a sentinel-terminated string -/

theorem mod_eq_pred_iff (n m k : Nat) (hm : m < n) (hk : k < n) :
    (m + k) % n = n - 1 ↔ m + k = n - 1 := by
  rcases Nat.lt_or_ge (m + k) n with h | h
  · rw [Nat.mod_eq_of_lt h]
  · have h2 : (m + k) % n = m + k - n := by
      rw [Nat.mod_eq_sub_mod h, Nat.mod_eq_of_lt (by omega)]
    rw [h2]
    omega

theorem succ_mod_pred (k n : Nat) (hk : k < n) : ((k + 1) % n + n - 1) % n = k := by
  rcases Nat.lt_or_ge (k + 1) n with h | h
  · rw [Nat.mod_eq_of_lt h]
    have h1 : k + 1 + n - 1 = k + n := by omega
    rw [h1, Nat.add_mod_right, Nat.mod_eq_of_lt hk]
  · have hk1 : k + 1 = n := by omega
    rw [hk1, Nat.mod_self]
    have h1 : 0 + n - 1 = k := by omega
    rw [h1, Nat.mod_eq_of_lt hk]

theorem pred_add_succ_mod (k n : Nat) (hk : k < n) :
    (n - 1 + (k + 1) % n) % n = k := by
  rcases Nat.lt_or_ge (k + 1) n with h | h
  · rw [Nat.mod_eq_of_lt h]
    have h1 : n - 1 + (k + 1) = k + n := by omega
    rw [h1, Nat.add_mod_right, Nat.mod_eq_of_lt hk]
  · have hk1 : k + 1 = n := by omega
    rw [hk1, Nat.mod_self, Nat.add_zero, Nat.mod_eq_of_lt (by omega)]
    omega

theorem pred_add_self_mod (k n : Nat) (hk : 1 ≤ k) (hk2 : k < n) :
    (n - 1 + k) % n = k - 1 := by
  have h1 : n - 1 + k = (k - 1) + n := by omega
  rw [h1, Nat.add_mod_right, Nat.mod_eq_of_lt (by omega)]

theorem charAt_append_sentinel (S : List Char) (hS : sentinel ∉ S) (q : Nat)
    (hq : q < S.length + 1) :
    charAt (S ++ [sentinel]) q = sentinel ↔ q = S.length := by
  have hlen : (S ++ [sentinel]).length = S.length + 1 := by simp
  by_cases h : q < S.length
  · rw [charAt_eq_getElem _ _ (by omega), List.getElem_append_left h]
    constructor
    · intro heq
      exact absurd (heq ▸ List.getElem_mem h) hS
    · intro heq
      omega
  · have hq' : q = S.length := by omega
    subst hq'
    rw [charAt_eq_getElem _ _ (by omega),
      List.getElem_append_right (le_refl S.length)]
    simp

theorem charAt_rot_sentinel (S : List Char) (hS : sentinel ∉ S) (k m : Nat)
    (hk : k < S.length + 1) (hm : m < S.length + 1) :
    charAt (rot (S ++ [sentinel]) k) m = sentinel ↔ m = S.length - k := by
  have hlen : (S ++ [sentinel]).length = S.length + 1 := by simp
  rw [charAt_rot _ k m (by omega) (by omega), hlen,
    charAt_append_sentinel S hS _ (Nat.mod_lt _ (by omega))]
  have := mod_eq_pred_iff (S.length + 1) m k hm hk
  have h2 : S.length + 1 - 1 = S.length := by omega
  rw [h2] at this
  rw [this]
  omega

theorem rot_inj (S : List Char) (hS : sentinel ∉ S) (k k' : Nat)
    (hk : k < S.length + 1) (hk' : k' < S.length + 1)
    (heq : rot (S ++ [sentinel]) k = rot (S ++ [sentinel]) k') : k = k' := by
  have h1 : charAt (rot (S ++ [sentinel]) k) (S.length - k) = sentinel :=
    (charAt_rot_sentinel S hS k (S.length - k) hk (by omega)).mpr rfl
  rw [heq] at h1
  have h2 := (charAt_rot_sentinel S hS k' (S.length - k) hk' (by omega)).mp h1
  omega

theorem rots_nodup (S : List Char) (hS : sentinel ∉ S) :
    (cyclic_rotations S).Nodup := by
  rw [cyclic_rotations_eq]
  refine (List.nodup_range _).map_on ?_
  intro k hk k' hk' heq
  have hk1 : k < S.length + 1 := by
    have := List.mem_range.mp hk
    simpa using this
  have hk2 : k' < S.length + 1 := by
    have := List.mem_range.mp hk'
    simpa using this
  exact rot_inj S hS k k' hk1 hk2 heq

theorem lexrots_nodup (S : List Char) (hS : sentinel ∉ S) :
    (lexsort_list (cyclic_rotations S)).Nodup :=
  (lexsort_perm _).nodup_iff.mpr (rots_nodup S hS)

theorem sorted_nodup_pairwise_strLt (A : List (List Char))
    (hs : List.Sorted strLe A) (hn : A.Nodup) :
    List.Pairwise (fun a b => strLt a b = true) A :=
  (hs.and hn).imp (fun h => strLt_of_strLe_of_ne h.1 h.2)

theorem lexrots_pairwise (S : List Char) (hS : sentinel ∉ S) :
    List.Pairwise (fun a b => strLt a b = true) (lexsort_list (cyclic_rotations S)) :=
  sorted_nodup_pairwise_strLt _ (lexsort_sorted _) (lexrots_nodup S hS)

theorem charAt_dropLast (w : List Char) (m : Nat) (hm : m < w.length - 1) :
    charAt w.dropLast m = charAt w m := by
  rw [List.dropLast_eq_take]
  simp only [charAt, List.getD_eq_getElem?_getD]
  rw [List.getElem?_take_of_lt hm]

theorem rotR_length (w : List Char) (hw : w ≠ []) : (rotR w).length = w.length := by
  have := List.length_pos.mpr hw
  simp [rotR]
  omega

theorem charAt_rotR_zero (w : List Char) : charAt (rotR w) 0 = w.getLastD sentinel := by
  simp [rotR, charAt]

theorem charAt_rotR_succ (w : List Char) (m : Nat) (hm : m < w.length - 1) :
    charAt (rotR w) (m + 1) = charAt w m := by
  simp only [rotR, charAt, List.getD_cons_succ]
  exact charAt_dropLast w m hm

theorem charAt_ext (u v : List Char) (hlen : u.length = v.length)
    (h : ∀ m, m < u.length → charAt u m = charAt v m) : u = v := by
  apply List.ext_getElem hlen
  intro i h1 h2
  rw [← charAt_eq_getElem u i h1, ← charAt_eq_getElem v i h2]
  exact h i h1

theorem rotR_rot (T : List Char) (k : Nat) (hk : k < T.length) (hT : T ≠ []) :
    rotR (rot T k) = rot T ((k + T.length - 1) % T.length) := by
  have hpos : 0 < T.length := List.length_pos.mpr hT
  have hmod : (k + T.length - 1) % T.length < T.length := Nat.mod_lt _ hpos
  apply charAt_ext
  · rw [rotR_length _ (rot_ne_nil T k hT), rot_length, rot_length]
  · intro m hm
    rw [rotR_length _ (rot_ne_nil T k hT), rot_length] at hm
    cases m with
    | zero =>
      rw [charAt_rotR_zero, lastCh_rot T k (le_of_lt hk) hT,
        charAt_rot T _ 0 (le_of_lt hmod) hpos]
      congr 1
      rw [Nat.zero_add, Nat.mod_mod_of_dvd _ (dvd_refl _)]
      congr 1
      omega
    | succ m' =>
      have hm' : m' < T.length - 1 := by omega
      rw [charAt_rotR_succ _ m' (by rw [rot_length]; omega),
        charAt_rot T k m' (le_of_lt hk) (by omega),
        charAt_rot T _ (m' + 1) (le_of_lt hmod) (by omega)]
      congr 1
      have h2 : (m' + 1 + (k + T.length - 1) % T.length) % T.length =
          (m' + 1 + (k + T.length - 1)) % T.length := by
        conv_lhs => rw [Nat.add_comm (m' + 1) ((k + T.length - 1) % T.length)]
        rw [Nat.mod_add_mod, Nat.add_comm]
      rw [h2]
      have h3 : m' + 1 + (k + T.length - 1) = m' + k + T.length := by omega
      rw [h3, Nat.add_mod_right]

theorem dropLast_rot_inj_aux (S : List Char) (hS : sentinel ∉ S) (k k' : Nat)
    (hk1 : 1 ≤ k) (hk : k < S.length + 1) (hk' : k' < S.length + 1)
    (heq : (rot (S ++ [sentinel]) k).dropLast = (rot (S ++ [sentinel]) k').dropLast) :
    k = k' := by
  have hlen : (S ++ [sentinel]).length = S.length + 1 := by simp
  have h1 : charAt ((rot (S ++ [sentinel]) k).dropLast) (S.length - k) = sentinel := by
    rw [charAt_dropLast _ _ (by rw [rot_length, hlen]; omega)]
    exact (charAt_rot_sentinel S hS k _ hk (by omega)).mpr rfl
  rw [heq] at h1
  rw [charAt_dropLast _ _ (by rw [rot_length, hlen]; omega)] at h1
  have h2 := (charAt_rot_sentinel S hS k' (S.length - k) hk' (by omega)).mp h1
  omega

theorem dropLast_rot_ne (S : List Char) (hS : sentinel ∉ S) (k k' : Nat)
    (hk : k < S.length + 1) (hk' : k' < S.length + 1) (hne : k ≠ k') :
    (rot (S ++ [sentinel]) k).dropLast ≠ (rot (S ++ [sentinel]) k').dropLast := by
  intro heq
  rcases Nat.eq_zero_or_pos k with rfl | hkpos
  · rcases Nat.eq_zero_or_pos k' with rfl | hk'pos
    · exact hne rfl
    · exact hne (dropLast_rot_inj_aux S hS k' 0 hk'pos hk' hk heq.symm).symm
  · exact hne (dropLast_rot_inj_aux S hS k k' hkpos hk hk' heq)

theorem strLt_cons_eq (x y : Char) (xs ys : List Char) :
    strLt (x :: xs) (y :: ys) =
      (decide (x < y) || (decide (x = y) && strLt xs ys)) := by
  by_cases h1 : x < y
  · simp [strLt, h1]
  · by_cases h2 : y < x
    · have hne : x ≠ y := ne_of_gt h2
      simp [strLt, h1, h2, hne]
    · have heq : x = y := le_antisymm (not_lt.mp h2) (not_lt.mp h1)
      simp [strLt, h1, h2, heq]

theorem strLt_dropLast_rot (S : List Char) (hS : sentinel ∉ S) (k k' : Nat)
    (hk : k < S.length + 1) (hk' : k' < S.length + 1) (hne : k ≠ k') :
    strLt ((rot (S ++ [sentinel]) k).dropLast) ((rot (S ++ [sentinel]) k').dropLast) =
      strLt (rot (S ++ [sentinel]) k) (rot (S ++ [sentinel]) k') := by
  have hTne : (S ++ [sentinel]) ≠ [] := by simp
  have hne1 := rot_ne_nil (S ++ [sentinel]) k hTne
  have hne2 := rot_ne_nil (S ++ [sentinel]) k' hTne
  conv_rhs => rw [← List.dropLast_append_getLast hne1, ← List.dropLast_append_getLast hne2]
  rw [strLt_append_singleton _ _ _ _
    (by rw [List.length_dropLast, List.length_dropLast, rot_length, rot_length])
    (dropLast_rot_ne S hS k k' hk hk' hne)]

/-! ### Counting rows below a given row in the sorted rotation table -/

theorem lexrots_length (S : List Char) :
    (lexsort_list (cyclic_rotations S)).length = S.length + 1 := by
  rw [lexsort_length, cyclic_rotations_eq]
  simp

theorem lexrots_getD_mem (S : List Char) (i : Nat) (hi : i < S.length + 1) :
    ∃ k, k < S.length + 1 ∧
      (lexsort_list (cyclic_rotations S)).getD i [] = rot (S ++ [sentinel]) k := by
  have hmem : (lexsort_list (cyclic_rotations S)).getD i [] ∈
      lexsort_list (cyclic_rotations S) := by
    rw [List.getD_eq_getElem _ _ (by rw [lexrots_length]; omega)]
    exact List.getElem_mem _
  rw [(lexsort_perm _).mem_iff, cyclic_rotations_eq] at hmem
  obtain ⟨k, hk, heq⟩ := List.mem_map.mp hmem
  exact ⟨k, by simpa using List.mem_range.mp hk, heq.symm⟩

theorem rot_mem_lexrots (S : List Char) (k : Nat) (hk : k < S.length + 1) :
    rot (S ++ [sentinel]) k ∈ lexsort_list (cyclic_rotations S) := by
  rw [(lexsort_perm _).mem_iff, cyclic_rotations_eq]
  exact List.mem_map.mpr ⟨k, List.mem_range.mpr (by simpa using hk), rfl⟩

theorem charAt_bwt (S : List Char) (i : Nat) (hi : i < S.length + 1) :
    charAt (bwt S) i = ((lexsort_list (cyclic_rotations S)).getD i []).getLastD sentinel := by
  have h1 : i < (bwt S).length := by rw [bwt_length]; omega
  rw [charAt_eq_getElem _ _ h1]
  have h2 : i < (lexsort_list (cyclic_rotations S)).length := by
    rw [lexrots_length]
    omega
  rw [List.getD_eq_getElem _ _ h2]
  simp [bwt]

theorem pairwise_strLt_countP_and (A : List (List Char))
    (hA : List.Pairwise (fun a b => strLt a b = true) A) (i : Nat) (hi : i < A.length)
    (p : List Char → Bool) :
    A.countP (fun u => p u && strLt u (A[i])) = (A.take i).countP p := by
  have hsplit := List.countP_append (fun u => p u && strLt u (A[i])) (A.take i) (A.drop i)
  rw [List.take_append_drop] at hsplit
  have h1 : (A.take i).countP (fun u => p u && strLt u (A[i])) = (A.take i).countP p := by
    apply List.countP_congr
    intro u hu
    obtain ⟨t, ht, rfl⟩ := List.getElem_of_mem hu
    have ht' : t < i := by
      have := ht
      simp at this
      omega
    simp only [List.getElem_take]
    have hlt : strLt (A[t]) (A[i]) = true :=
      List.pairwise_iff_getElem.mp hA t i (by omega) hi ht'
    simp [hlt]
  have h2 : (A.drop i).countP (fun u => p u && strLt u (A[i])) = 0 := by
    rw [List.countP_eq_zero]
    intro u hu
    obtain ⟨t, ht, rfl⟩ := List.getElem_of_mem hu
    have hitlen : i + t < A.length := by
      have := ht
      simp at this
      omega
    simp only [List.getElem_drop]
    have hfalse : strLt (A[i + t]) (A[i]) = false := by
      rcases Nat.eq_zero_or_pos t with rfl | hpos
      · exact strLt_irrefl _
      · exact strLt_asymm _ _ (List.pairwise_iff_getElem.mp hA i (i + t) hi hitlen (by omega))
    simp [hfalse]
  omega

theorem pairwise_strLt_countP_self (A : List (List Char))
    (hA : List.Pairwise (fun a b => strLt a b = true) A) (i : Nat) (hi : i < A.length) :
    A.countP (fun u => strLt u (A[i])) = i := by
  have h := pairwise_strLt_countP_and A hA i hi (fun _ => true)
  have e1 : A.countP (fun u => (fun _ => true) u && strLt u (A[i])) =
      A.countP (fun u => strLt u (A[i])) := by
    apply List.countP_congr
    intro u _
    simp
  have e2 : (A.take i).countP (fun _ => true) = (A.take i).length := by
    rw [List.countP_eq_length]
    intro a _
    rfl
  rw [e1, e2] at h
  rw [h]
  simp
  omega

theorem pairwise_strLt_getD_countP (A : List (List Char))
    (hA : List.Pairwise (fun a b => strLt a b = true) A) (w : List Char) (hw : w ∈ A) :
    A.countP (fun u => strLt u w) < A.length ∧
    A.getD (A.countP (fun u => strLt u w)) [] = w := by
  obtain ⟨i, hi, rfl⟩ := List.getElem_of_mem hw
  rw [pairwise_strLt_countP_self A hA i hi]
  exact ⟨hi, List.getD_eq_getElem _ _ hi⟩

theorem strLt_rot_rotR_split (S : List Char) (hS : sentinel ∉ S) (k m : Nat)
    (hk : k < S.length + 1) (hm : m < S.length + 1) :
    strLt (rot (S ++ [sentinel]) k) (rotR (rot (S ++ [sentinel]) m)) =
      ((decide ((rot (S ++ [sentinel]) ((k + 1) % (S.length + 1))).getLastD sentinel <
          (rot (S ++ [sentinel]) m).getLastD sentinel)) ||
       ((decide ((rot (S ++ [sentinel]) ((k + 1) % (S.length + 1))).getLastD sentinel =
          (rot (S ++ [sentinel]) m).getLastD sentinel)) &&
        strLt (rot (S ++ [sentinel]) ((k + 1) % (S.length + 1))) (rot (S ++ [sentinel]) m))) := by
  have hTne : (S ++ [sentinel]) ≠ [] := by simp
  have hTlen : (S ++ [sentinel]).length = S.length + 1 := by simp
  have hk₁ : (k + 1) % (S.length + 1) < S.length + 1 := Nat.mod_lt _ (by omega)
  have hkey : rotR (rot (S ++ [sentinel]) ((k + 1) % (S.length + 1))) =
      rot (S ++ [sentinel]) k := by
    rw [rotR_rot _ _ (by rw [hTlen]; exact hk₁) hTne, hTlen]
    congr 1
    exact succ_mod_pred k (S.length + 1) hk
  rw [← hkey]
  rw [rotR, rotR, strLt_cons_eq]
  by_cases hkm : (k + 1) % (S.length + 1) = m
  · rw [hkm, strLt_irrefl, strLt_irrefl]
  · rw [strLt_dropLast_rot S hS _ m hk₁ hm hkm]

theorem lastCh_rot_succ (S : List Char) (k : Nat) (hk : k < S.length + 1) :
    (rot (S ++ [sentinel]) ((k + 1) % (S.length + 1))).getLastD sentinel =
      charAt (S ++ [sentinel]) k := by
  have hTne : (S ++ [sentinel]) ≠ [] := by simp
  have hTlen : (S ++ [sentinel]).length = S.length + 1 := by simp
  rw [lastCh_rot _ _ (by rw [hTlen]; exact le_of_lt (Nat.mod_lt _ (by omega))) hTne, hTlen]
  congr 1
  exact pred_add_succ_mod k (S.length + 1) hk

theorem countP_strLt_rotR_eq_lf (S : List Char) (hS : sentinel ∉ S) (i : Nat)
    (hi : i < S.length + 1) :
    (lexsort_list (cyclic_rotations S)).countP
        (fun u => strLt u (rotR ((lexsort_list (cyclic_rotations S)).getD i []))) =
      (last_to_first_index (bwt S)).getD i 0 := by
  have hTne : (S ++ [sentinel]) ≠ [] := by simp
  have hTlen : (S ++ [sentinel]).length = S.length + 1 := by simp
  have hLlen : (bwt S).length = S.length + 1 := bwt_length S
  have hA := lexrots_pairwise S hS
  have hiA : i < (lexsort_list (cyclic_rotations S)).length := by
    rw [lexrots_length]
    omega
  obtain ⟨m, hm, hAi⟩ := lexrots_getD_mem S i hi
  have hAig : (lexsort_list (cyclic_rotations S))[i] = rot (S ++ [sentinel]) m := by
    rw [← List.getD_eq_getElem _ ([] : List Char) hiA]
    exact hAi
  have hc : charAt (bwt S) i = (rot (S ++ [sentinel]) m).getLastD sentinel := by
    rw [charAt_bwt S i hi, hAi]
  -- first summand: rows whose head is below the target character
  have hp1 : (List.range (S.length + 1)).countP
      (fun j => decide ((rot (S ++ [sentinel]) j).getLastD sentinel <
        (rot (S ++ [sentinel]) m).getLastD sentinel)) =
      (bwt S).countP (fun x => decide (x < (rot (S ++ [sentinel]) m).getLastD sentinel)) := by
    have h1 : (List.range (S.length + 1)).countP
        (fun j => decide ((rot (S ++ [sentinel]) j).getLastD sentinel <
          (rot (S ++ [sentinel]) m).getLastD sentinel)) =
        ((List.range (S.length + 1)).map
          (fun j => (rot (S ++ [sentinel]) j).getLastD sentinel)).countP
          (fun x => decide (x < (rot (S ++ [sentinel]) m).getLastD sentinel)) := by
      rw [List.countP_map]
      rfl
    have h2 : (List.range (S.length + 1)).map
        (fun j => (rot (S ++ [sentinel]) j).getLastD sentinel) =
        (cyclic_rotations S).map (fun w => w.getLastD sentinel) := by
      rw [cyclic_rotations_eq, hTlen, List.map_map]
      rfl
    have h3 : List.Perm ((cyclic_rotations S).map (fun w => w.getLastD sentinel)) (bwt S) :=
      ((lexsort_perm (cyclic_rotations S)).map _).symm
    rw [h1, h2]
    exact h3.countP_eq _
  -- second summand: earlier rows sharing the target character
  have hp2 : (List.range (S.length + 1)).countP
      (fun j => decide ((rot (S ++ [sentinel]) j).getLastD sentinel =
        (rot (S ++ [sentinel]) m).getLastD sentinel) &&
        strLt (rot (S ++ [sentinel]) j) (rot (S ++ [sentinel]) m)) =
      ((bwt S).take i).count ((rot (S ++ [sentinel]) m).getLastD sentinel) := by
    have h1 : (List.range (S.length + 1)).countP
        (fun j => decide ((rot (S ++ [sentinel]) j).getLastD sentinel =
          (rot (S ++ [sentinel]) m).getLastD sentinel) &&
          strLt (rot (S ++ [sentinel]) j) (rot (S ++ [sentinel]) m)) =
        (cyclic_rotations S).countP
          (fun u => decide (u.getLastD sentinel =
            (rot (S ++ [sentinel]) m).getLastD sentinel) &&
            strLt u (rot (S ++ [sentinel]) m)) := by
      rw [cyclic_rotations_eq, hTlen, List.countP_map]
      rfl
    have h2 : (cyclic_rotations S).countP
        (fun u => decide (u.getLastD sentinel =
          (rot (S ++ [sentinel]) m).getLastD sentinel) &&
          strLt u (rot (S ++ [sentinel]) m)) =
        (lexsort_list (cyclic_rotations S)).countP
          (fun u => decide (u.getLastD sentinel =
            (rot (S ++ [sentinel]) m).getLastD sentinel) &&
            strLt u (rot (S ++ [sentinel]) m)) :=
      ((lexsort_perm (cyclic_rotations S)).countP_eq _).symm
    rw [h1, h2, ← hAig,
      pairwise_strLt_countP_and (lexsort_list (cyclic_rotations S)) hA i hiA]
    -- the prefix count of rows with last character c is the count in take i of bwt
    rw [hAig]
    have h4 : ((bwt S).take i) = ((lexsort_list (cyclic_rotations S)).take i).map
        (fun w => w.getLastD sentinel) := by
      have : bwt S = (lexsort_list (cyclic_rotations S)).map
          (fun w => w.getLastD sentinel) := rfl
      rw [this, List.map_take]
    rw [h4, List.count_eq_countP, List.countP_map]
    apply List.countP_congr
    intro u _
    simp [Function.comp]
  -- assemble
  calc (lexsort_list (cyclic_rotations S)).countP
        (fun u => strLt u (rotR ((lexsort_list (cyclic_rotations S)).getD i []))) =
      (cyclic_rotations S).countP
        (fun u => strLt u (rotR (rot (S ++ [sentinel]) m))) := by
        rw [hAi]
        exact (lexsort_perm (cyclic_rotations S)).countP_eq _
    _ = (List.range (S.length + 1)).countP
        (fun k => strLt (rot (S ++ [sentinel]) k) (rotR (rot (S ++ [sentinel]) m))) := by
        rw [cyclic_rotations_eq, hTlen, List.countP_map]
        rfl
    _ = (List.range (S.length + 1)).countP (fun k =>
          (decide ((rot (S ++ [sentinel]) ((k + 1) % (S.length + 1))).getLastD sentinel <
              (rot (S ++ [sentinel]) m).getLastD sentinel) ||
           (decide ((rot (S ++ [sentinel]) ((k + 1) % (S.length + 1))).getLastD sentinel =
              (rot (S ++ [sentinel]) m).getLastD sentinel) &&
            strLt (rot (S ++ [sentinel]) ((k + 1) % (S.length + 1)))
              (rot (S ++ [sentinel]) m)))) := by
        apply List.countP_congr
        intro k hk
        rw [strLt_rot_rotR_split S hS k m (by simpa using List.mem_range.mp hk) hm]
    _ = (List.range (S.length + 1)).countP (fun j =>
          (decide ((rot (S ++ [sentinel]) j).getLastD sentinel <
              (rot (S ++ [sentinel]) m).getLastD sentinel) ||
           (decide ((rot (S ++ [sentinel]) j).getLastD sentinel =
              (rot (S ++ [sentinel]) m).getLastD sentinel) &&
            strLt (rot (S ++ [sentinel]) j) (rot (S ++ [sentinel]) m)))) := by
        have h1 := List.countP_map (fun j =>
          (decide ((rot (S ++ [sentinel]) j).getLastD sentinel <
              (rot (S ++ [sentinel]) m).getLastD sentinel) ||
           (decide ((rot (S ++ [sentinel]) j).getLastD sentinel =
              (rot (S ++ [sentinel]) m).getLastD sentinel) &&
            strLt (rot (S ++ [sentinel]) j) (rot (S ++ [sentinel]) m))))
          (fun k => (k + 1) % (S.length + 1)) (List.range (S.length + 1))
        rw [map_add_mod_range (S.length + 1) 1] at h1
        have h2 := (List.rotate_perm (List.range (S.length + 1)) 1).countP_eq (fun j =>
          (decide ((rot (S ++ [sentinel]) j).getLastD sentinel <
              (rot (S ++ [sentinel]) m).getLastD sentinel) ||
           (decide ((rot (S ++ [sentinel]) j).getLastD sentinel =
              (rot (S ++ [sentinel]) m).getLastD sentinel) &&
            strLt (rot (S ++ [sentinel]) j) (rot (S ++ [sentinel]) m))))
        rw [h2] at h1
        exact h1.symm
    _ = (List.range (S.length + 1)).countP (fun j =>
          decide ((rot (S ++ [sentinel]) j).getLastD sentinel <
            (rot (S ++ [sentinel]) m).getLastD sentinel)) +
        (List.range (S.length + 1)).countP (fun j =>
          decide ((rot (S ++ [sentinel]) j).getLastD sentinel =
            (rot (S ++ [sentinel]) m).getLastD sentinel) &&
          strLt (rot (S ++ [sentinel]) j) (rot (S ++ [sentinel]) m)) := by
        apply countP_or_split
        intro a _ h
        obtain ⟨h1, h2⟩ := h
        rw [decide_eq_true_eq] at h1
        rw [Bool.and_eq_true, decide_eq_true_eq] at h2
        rw [h2.1] at h1
        exact lt_irrefl _ h1
    _ = (last_to_first_index (bwt S)).getD i 0 := by
        rw [hp1, hp2]
        have hLF := lf_getD_formula (bwt S) i (by omega)
        rw [hc] at hLF
        have hsucc := count_take_succ_self (bwt S) i (by omega)
        rw [hc] at hsucc
        omega

/-- The LF-mapping sends a row of the sorted rotation table to the row
holding that rotation shifted one step to the right. -/
theorem lf_rotR (S : List Char) (hS : sentinel ∉ S) (i : Nat) (hi : i < S.length + 1) :
    (last_to_first_index (bwt S)).getD i 0 < S.length + 1 ∧
    (lexsort_list (cyclic_rotations S)).getD ((last_to_first_index (bwt S)).getD i 0) [] =
      rotR ((lexsort_list (cyclic_rotations S)).getD i []) := by
  have hA := lexrots_pairwise S hS
  obtain ⟨m, hm, hAi⟩ := lexrots_getD_mem S i hi
  have hTne : (S ++ [sentinel]) ≠ [] := by simp
  have hTlen : (S ++ [sentinel]).length = S.length + 1 := by simp
  have hmem : rotR ((lexsort_list (cyclic_rotations S)).getD i []) ∈
      lexsort_list (cyclic_rotations S) := by
    rw [hAi, rotR_rot _ m (by omega) hTne, hTlen]
    exact rot_mem_lexrots S _ (Nat.mod_lt _ (by omega))
  obtain ⟨hb, hg⟩ := pairwise_strLt_getD_countP _ hA _ hmem
  rw [countP_strLt_rotR_eq_lf S hS i hi] at hb hg
  rw [lexrots_length] at hb
  exact ⟨hb, hg⟩

theorem lexrots_getD_sentinel (S : List Char) (hS : sentinel ∉ S) (j : Nat)
    (hj : j < S.length + 1) (hsent : charAt (bwt S) j = sentinel) :
    (lexsort_list (cyclic_rotations S)).getD j [] = rot (S ++ [sentinel]) 0 := by
  have hTne : (S ++ [sentinel]) ≠ [] := by simp
  have hTlen : (S ++ [sentinel]).length = S.length + 1 := by simp
  obtain ⟨m, hm, hAj⟩ := lexrots_getD_mem S j hj
  rw [charAt_bwt S j hj, hAj] at hsent
  rw [lastCh_rot _ m (by omega) hTne, hTlen] at hsent
  rw [charAt_append_sentinel S hS _ (Nat.mod_lt _ (by omega))] at hsent
  have harg : S.length + 1 - 1 + m = S.length + m := by omega
  rw [harg] at hsent
  have hm0 : m = 0 := by
    have h2 := (mod_eq_pred_iff (S.length + 1) S.length m (by omega) hm).mp hsent
    omega
  rw [hAj, hm0]

theorem invertWalk_succ (L : List Char) (nxt : List Nat) (t j : Nat) :
    invertWalk L nxt (t + 1) j = charAt L j :: invertWalk L nxt t (nxt.getD j 0) := rfl

theorem rstrip_append_sentinel (S : List Char) (hS : sentinel ∉ S) :
    rstripSentinel (S ++ [sentinel]) = S := by
  unfold rstripSentinel
  rw [List.reverse_append]
  simp only [List.reverse_cons, List.reverse_nil, List.nil_append, List.singleton_append]
  rw [List.dropWhile_cons]
  simp only [decide_True, if_true]
  cases hrev : S.reverse with
  | nil =>
    have hS0 : S = [] := by
      have := congrArg List.reverse hrev
      simpa using this
    simp [hS0]
  | cons a as =>
    have ha : a ∈ S := by
      rw [← List.mem_reverse, hrev]
      exact List.mem_cons_self a as
    have hane : ¬(decide (a = sentinel) = true) := by
      simp only [decide_eq_true_eq]
      exact fun h => hS (h ▸ ha)
    rw [List.dropWhile_cons, if_neg hane, ← hrev, List.reverse_reverse]

theorem invertWalk_desc (S : List Char) (hS : sentinel ∉ S) :
    ∀ (t k j : Nat), t ≤ k → k < S.length + 1 → j < S.length + 1 →
      (lexsort_list (cyclic_rotations S)).getD j [] = rot (S ++ [sentinel]) k →
      invertWalk (bwt S) (last_to_first_index (bwt S)) t j =
        (((S ++ [sentinel]).drop (k - t)).take t).reverse := by
  intro t
  induction t with
  | zero =>
    intro k j _ _ _ _
    simp [invertWalk]
  | succ t ih =>
    intro k j htk hk hj hAj
    have hTne : (S ++ [sentinel]) ≠ [] := by simp
    have hTlen : (S ++ [sentinel]).length = S.length + 1 := by simp
    have hk1 : 1 ≤ k := by omega
    have hchar : charAt (bwt S) j = charAt (S ++ [sentinel]) (k - 1) := by
      rw [charAt_bwt S j hj, hAj, lastCh_rot _ k (by omega) hTne, hTlen,
        pred_add_self_mod k (S.length + 1) hk1 hk]
    obtain ⟨hb, hg⟩ := lf_rotR S hS j hj
    have hnext : (lexsort_list (cyclic_rotations S)).getD
        ((last_to_first_index (bwt S)).getD j 0) [] =
        rot (S ++ [sentinel]) (k - 1) := by
      rw [hg, hAj, rotR_rot _ k (by omega) hTne, hTlen]
      congr 1
      have h1 : k + (S.length + 1) - 1 = (k - 1) + (S.length + 1) := by omega
      rw [h1, Nat.add_mod_right, Nat.mod_eq_of_lt (by omega)]
    rw [invertWalk]
    rw [ih (k - 1) _ (by omega) (by omega) hb hnext]
    rw [hchar]
    have harg : k - (t + 1) = k - 1 - t := by omega
    rw [harg]
    have hdl : k - 1 < (S ++ [sentinel]).length := by omega
    have htake : ((S ++ [sentinel]).drop (k - 1 - t)).take (t + 1) =
        ((S ++ [sentinel]).drop (k - 1 - t)).take t ++ [charAt (S ++ [sentinel]) (k - 1)] := by
      rw [List.take_succ]
      congr 1
      rw [List.getElem?_drop]
      have hidx : k - 1 - t + t = k - 1 := by omega
      rw [hidx, List.getElem?_eq_getElem hdl, ← charAt_eq_getElem _ _ hdl]
      rfl
    rw [htake, List.reverse_append]
    simp

/-- C1: for every string `S` not containing the sentinel, inverting the
transform recovers the input exactly: `invert_bwt (bwt S) = some S`. -/
theorem bwt_invert_roundtrip (S : List Char) (hS : sentinel ∉ S) :
    invert_bwt (bwt S) = some S := by
  have hTne : (S ++ [sentinel]) ≠ [] := by simp
  have hTlen : (S ++ [sentinel]).length = S.length + 1 := by simp
  have hLlen : (bwt S).length = S.length + 1 := bwt_length S
  have hmemT : sentinel ∈ bwt S := by
    rw [(bwt_perm S).mem_iff]
    simp
  unfold invert_bwt
  rw [if_pos hmemT]
  have hj0 : (bwt S).indexOf sentinel < (bwt S).length :=
    List.indexOf_lt_length.mpr hmemT
  have hj0lt : (bwt S).indexOf sentinel < S.length + 1 := by omega
  have hj0sent : charAt (bwt S) ((bwt S).indexOf sentinel) = sentinel := by
    rw [charAt_eq_getElem _ _ hj0]
    exact List.getElem_indexOf hj0
  have hAj0 : (lexsort_list (cyclic_rotations S)).getD ((bwt S).indexOf sentinel) [] =
      rot (S ++ [sentinel]) 0 := lexrots_getD_sentinel S hS _ hj0lt hj0sent
  dsimp only
  rw [hLlen, invertWalk_succ, hj0sent]
  obtain ⟨hb, hg⟩ := lf_rotR S hS _ hj0lt
  have hnext : (lexsort_list (cyclic_rotations S)).getD
      ((last_to_first_index (bwt S)).getD ((bwt S).indexOf sentinel) 0) [] =
      rot (S ++ [sentinel]) S.length := by
    rw [hg, hAj0, rotR_rot _ 0 (by omega) hTne, hTlen]
    congr 1
    have h1 : 0 + (S.length + 1) - 1 = S.length := by omega
    rw [h1, Nat.mod_eq_of_lt (by omega)]
  rw [invertWalk_desc S hS S.length S.length _ (le_refl _) (by omega) hb hnext]
  simp only [Nat.sub_self, List.drop_zero]
  have htk : (S ++ [sentinel]).take S.length = S := by
    have := List.take_left S [sentinel]
    simpa using this
  rw [htk, List.reverse_cons, List.reverse_reverse, rstrip_append_sentinel S hS]

theorem bwt_invert_roundtrip_witness :
    invert_bwt (bwt ['A', 'B', 'A']) = some ['A', 'B', 'A'] :=
  bwt_invert_roundtrip ['A', 'B', 'A'] (by decide)

/-! ### Patterns with a symbol that never occurs in the last column -/

theorem bw_matching_loop_absent (lastcol : List Char) (lf : List Nat) (c : Char)
    (hcL : c ∉ lastcol) (hcsent : c ≠ sentinel) :
    ∀ (revpat : List Char) (top bottom : Nat), c ∈ revpat →
      bw_matching_loop lastcol lf (revpat.length + 1) revpat top bottom = some 0 := by
  intro revpat
  induction revpat with
  | nil =>
    intro top bottom hc
    cases hc
  | cons s rest ih =>
    intro top bottom hc
    rw [bw_matching_loop]
    split
    · cases hpos : (List.range' top (bottom + 1 - top)).filter
          (fun i => decide (charAt lastcol i = s)) with
      | nil => simp [hpos]
      | cons p ps =>
        simp only [hpos]
        by_cases hcs : c = s
        · exfalso
          have hp : p ∈ (List.range' top (bottom + 1 - top)).filter
              (fun i => decide (charAt lastcol i = s)) := by
            rw [hpos]
            exact List.mem_cons_self p ps
          have hps := List.of_mem_filter hp
          rw [decide_eq_true_eq] at hps
          by_cases hbound : p < lastcol.length
          · rw [charAt_eq_getElem _ _ hbound] at hps
            exact hcL (hcs ▸ hps ▸ List.getElem_mem hbound)
          · have hnone : lastcol[p]? = none := List.getElem?_eq_none (by omega)
            have : charAt lastcol p = sentinel := by
              simp [charAt, List.getD_eq_getElem?_getD, hnone]
            rw [this] at hps
            exact hcsent (hcs.trans hps.symm)
        · have hcrest : c ∈ rest := by
            rcases List.mem_cons.mp hc with h | h
            · exact absurd h hcs
            · exact h
          exact ih _ _ hcrest
    · rfl

/-- C8 (amended): for every pattern containing a symbol other than the
sentinel that is absent from `S`, the search returns 0. (The sentinel
itself must be excluded: it always occurs once in `S + "$"`.) -/
theorem bwa_search_absent_symbol_zero (S P : List Char) (c : Char)
    (hS : sentinel ∉ S) (hcP : c ∈ P) (hcS : c ∉ S) (hcsent : c ≠ sentinel) :
    bwa_search S P = some 0 := by
  have hcL : c ∉ bwt S := by
    rw [(bwt_perm S).mem_iff]
    simp only [List.mem_append, List.mem_singleton]
    rintro (h | h)
    · exact hcS h
    · exact hcsent h
  have hrev : c ∈ P.reverse := List.mem_reverse.mpr hcP
  have h := bw_matching_loop_absent (bwt S) (last_to_first_index (bwt S)) c hcL hcsent
    P.reverse 0 ((bwt S).length - 1) hrev
  rw [List.length_reverse] at h
  exact h

theorem bwa_search_absent_symbol_zero_witness : bwa_search ['A'] ['C'] = some 0 :=
  bwa_search_absent_symbol_zero ['A'] ['C'] 'C' (by decide) (by decide) (by decide) (by decide)

/-! ### Prefix structure of the sorted rotation table -/

theorem pfx_nil (u : List Char) : pfx [] u := rfl

theorem pfx_length_le (Q u : List Char) (h : pfx Q u) : Q.length ≤ u.length := by
  have := congrArg List.length h
  simp at this
  omega

theorem pfx_cons_iff (c : Char) (Q : List Char) (x : Char) (w : List Char) :
    pfx (c :: Q) (x :: w) ↔ (x = c ∧ pfx Q w) := by
  unfold pfx
  simp [List.take_cons]

theorem pfx_cons_elim (c : Char) (Q u : List Char) (h : pfx (c :: Q) u) :
    ∃ w, u = c :: w ∧ pfx Q w := by
  cases u with
  | nil =>
    exfalso
    have := pfx_length_le _ _ h
    simp at this
  | cons x w =>
    obtain ⟨rfl, hw⟩ := (pfx_cons_iff c Q x w).mp h
    exact ⟨w, rfl, hw⟩

theorem pfx_dropLast_iff (Q u : List Char) (h : Q.length + 1 ≤ u.length) :
    pfx Q u.dropLast ↔ pfx Q u := by
  unfold pfx
  rw [List.dropLast_eq_take, List.take_take, Nat.min_eq_left (by omega)]

/-- Any string lexicographically between two strings sharing a prefix also
shares that prefix. -/
theorem pfx_middle : ∀ (Q x y z : List Char), strLe x y → strLe y z →
    pfx Q x → pfx Q z → pfx Q y
  | [], _, _, _, _, _, _, _ => pfx_nil _
  | c :: Q, x, y, z, hxy, hyz, hx, hz => by
    obtain ⟨x', rfl, hx'⟩ := pfx_cons_elim c Q x hx
    obtain ⟨z', rfl, hz'⟩ := pfx_cons_elim c Q z hz
    cases y with
    | nil =>
      exfalso
      have : strLt [] (c :: x') = true := by simp [strLt]
      rw [strLe] at hxy
      rw [hxy] at this
      cases this
    | cons e y' =>
      rw [strLe] at hxy hyz
      rcases (strLt_cons_false_iff e c y' x').mp hxy with h1 | ⟨heq1, h1⟩
      · rcases (strLt_cons_false_iff c e z' y').mp hyz with h2 | ⟨heq2, h2⟩
        · exact absurd h2 (asymm h1)
        · exact absurd h1 (heq2 ▸ lt_irrefl _)
      · subst heq1
        rcases (strLt_cons_false_iff e e z' y').mp hyz with h2 | ⟨-, h2⟩
        · exact absurd h2 (lt_irrefl _)
        · rw [pfx_cons_iff]
          exact ⟨rfl, pfx_middle Q x' y' z' h1 h2 hx' hz'⟩

theorem lexrots_getD_length (S : List Char) (j : Nat) (hj : j < S.length + 1) :
    ((lexsort_list (cyclic_rotations S)).getD j []).length = S.length + 1 := by
  obtain ⟨k, hk, hAj⟩ := lexrots_getD_mem S j hj
  rw [hAj, rot_length]
  simp

theorem lexrots_sorted_getD_le (S : List Char) (j1 j2 : Nat) (h12 : j1 ≤ j2)
    (hj2 : j2 < S.length + 1) :
    strLe ((lexsort_list (cyclic_rotations S)).getD j1 [])
      ((lexsort_list (cyclic_rotations S)).getD j2 []) := by
  have hlen := lexrots_length S
  have hj1 : j1 < S.length + 1 := by omega
  rcases Nat.eq_or_lt_of_le h12 with rfl | hlt
  · exact strLe_refl _
  · rw [List.getD_eq_getElem _ _ (by omega), List.getD_eq_getElem _ _ (by omega)]
    exact List.pairwise_iff_getElem.mp (lexsort_sorted (cyclic_rotations S))
      j1 j2 (by omega) (by omega) hlt

theorem lexrots_pfx_interval (S : List Char) (Q : List Char) (j1 j j2 : Nat)
    (h1 : j1 ≤ j) (h2 : j ≤ j2) (hj2 : j2 < S.length + 1)
    (hp1 : pfx Q ((lexsort_list (cyclic_rotations S)).getD j1 []))
    (hp2 : pfx Q ((lexsort_list (cyclic_rotations S)).getD j2 [])) :
    pfx Q ((lexsort_list (cyclic_rotations S)).getD j []) :=
  pfx_middle Q _ _ _ (lexrots_sorted_getD_le S j1 j (by omega) (by omega))
    (lexrots_sorted_getD_le S j j2 h2 hj2) hp1 hp2

theorem lexrots_getD_inj (S : List Char) (hS : sentinel ∉ S) (i1 i2 : Nat)
    (h1 : i1 < S.length + 1) (h2 : i2 < S.length + 1)
    (heq : (lexsort_list (cyclic_rotations S)).getD i1 [] =
      (lexsort_list (cyclic_rotations S)).getD i2 []) : i1 = i2 := by
  have hlen := lexrots_length S
  rw [List.getD_eq_getElem _ _ (by omega), List.getD_eq_getElem _ _ (by omega)] at heq
  have hnodup := lexrots_nodup S hS
  exact (List.Nodup.getElem_inj_iff hnodup).mp heq

theorem lexrots_row_of_rot (S : List Char) (k : Nat) (hk : k < S.length + 1) :
    ∃ i, i < S.length + 1 ∧
      (lexsort_list (cyclic_rotations S)).getD i [] = rot (S ++ [sentinel]) k := by
  have hmem := rot_mem_lexrots S k hk
  obtain ⟨i, hi, hgot⟩ := List.getElem_of_mem hmem
  refine ⟨i, by have := lexrots_length S; omega, ?_⟩
  rw [List.getD_eq_getElem _ _ hi]
  exact hgot

theorem lf_pfx_step (S : List Char) (hS : sentinel ∉ S) (i : Nat) (hi : i < S.length + 1)
    (c : Char) (R : List Char) (hR : R.length ≤ S.length) :
    pfx (c :: R) ((lexsort_list (cyclic_rotations S)).getD
        ((last_to_first_index (bwt S)).getD i 0) []) ↔
      (charAt (bwt S) i = c ∧ pfx R ((lexsort_list (cyclic_rotations S)).getD i [])) := by
  obtain ⟨hb, hg⟩ := lf_rotR S hS i hi
  rw [hg, rotR, pfx_cons_iff]
  have hlast : ((lexsort_list (cyclic_rotations S)).getD i []).getLastD sentinel =
      charAt (bwt S) i := (charAt_bwt S i hi).symm
  have hlen := lexrots_getD_length S i hi
  rw [hlast, pfx_dropLast_iff R _ (by omega)]

theorem lexrots_pfx_preimage (S : List Char) (hS : sentinel ∉ S) (j : Nat)
    (hj : j < S.length + 1) (c : Char) (R : List Char) (hR : R.length ≤ S.length)
    (hp : pfx (c :: R) ((lexsort_list (cyclic_rotations S)).getD j [])) :
    ∃ i, i < S.length + 1 ∧ (last_to_first_index (bwt S)).getD i 0 = j ∧
      charAt (bwt S) i = c ∧ pfx R ((lexsort_list (cyclic_rotations S)).getD i []) := by
  obtain ⟨m, hm, hAj⟩ := lexrots_getD_mem S j hj
  obtain ⟨i, hi, hAi⟩ := lexrots_row_of_rot S ((m + 1) % (S.length + 1))
    (Nat.mod_lt _ (by omega))
  obtain ⟨hb, hg⟩ := lf_rotR S hS i hi
  have hTne : (S ++ [sentinel]) ≠ [] := by simp
  have hTlen : (S ++ [sentinel]).length = S.length + 1 := by simp
  have hval : (lexsort_list (cyclic_rotations S)).getD
      ((last_to_first_index (bwt S)).getD i 0) [] =
      (lexsort_list (cyclic_rotations S)).getD j [] := by
    rw [hg, hAi, hAj,
      rotR_rot _ _ (by rw [hTlen]; exact Nat.mod_lt _ (by omega)) hTne, hTlen]
    congr 1
    exact succ_mod_pred m (S.length + 1) hm
  have hlfij : (last_to_first_index (bwt S)).getD i 0 = j :=
    lexrots_getD_inj S hS _ j hb hj hval
  have hstep := (lf_pfx_step S hS i hi c R hR).mp (by rw [hlfij]; exact hp)
  exact ⟨i, hi, hlfij, hstep.1, hstep.2⟩

theorem lf_mono_eq_char (L : List Char) (i1 i2 : Nat) (h12 : i1 ≤ i2)
    (h2 : i2 < L.length) (hc : charAt L i1 = charAt L i2) :
    (last_to_first_index L).getD i1 0 ≤ (last_to_first_index L).getD i2 0 := by
  have h1 : i1 < L.length := by omega
  rw [lf_getD_formula L i1 h1, lf_getD_formula L i2 h2, hc]
  have hmono : (L.take (i1 + 1)).count (charAt L i2) ≤
      (L.take (i2 + 1)).count (charAt L i2) := by
    have he : L.take (i1 + 1) = (L.take (i2 + 1)).take (i1 + 1) := by
      rw [List.take_take, Nat.min_eq_left (by omega)]
    rw [he]
    exact (List.take_sublist _ _).count_le _
  have hpos1 : 1 ≤ (L.take (i1 + 1)).count (charAt L i2) := by
    rw [← hc]
    exact count_take_pos L i1 h1
  omega

theorem sentinel_mem_rot (S : List Char) (k : Nat) (hk : k < S.length + 1) :
    sentinel ∈ rot (S ++ [sentinel]) k := by
  have hmem : sentinel ∈ (S ++ [sentinel]) := by simp
  rw [rot_eq_rotate _ _ (by simp; omega)]
  exact ((List.rotate_perm _ _).mem_iff).mpr hmem

theorem pfx_row_length_le (S : List Char) (hS : sentinel ∉ S) (R : List Char)
    (hRs : sentinel ∉ R) (j : Nat) (hj : j < S.length + 1)
    (hp : pfx R ((lexsort_list (cyclic_rotations S)).getD j [])) :
    R.length ≤ S.length := by
  have hlen := lexrots_getD_length S j hj
  have hle := pfx_length_le _ _ hp
  rw [hlen] at hle
  by_contra hcon
  push_neg at hcon
  have hReq : R.length = S.length + 1 := by omega
  have heq : ((lexsort_list (cyclic_rotations S)).getD j []).take R.length = R := hp
  rw [hReq, ← hlen, List.take_length] at heq
  obtain ⟨m, hm, hAj⟩ := lexrots_getD_mem S j hj
  have hsent := sentinel_mem_rot S m hm
  rw [← hAj, heq] at hsent
  exact hRs hsent

theorem pfx_rot_shift (S : List Char) (k : Nat) (hk : k < S.length + 1)
    (X Y : List Char) (hlen : X.length + Y.length ≤ S.length + 1)
    (hp : pfx (X ++ Y) (rot (S ++ [sentinel]) k)) :
    pfx Y (rot (S ++ [sentinel]) ((k + X.length) % (S.length + 1))) := by
  have hTlen : (S ++ [sentinel]).length = S.length + 1 := by simp
  have hrot : rot (S ++ [sentinel]) ((k + X.length) % (S.length + 1)) =
      (rot (S ++ [sentinel]) k).rotate X.length := by
    rw [rot_eq_rotate _ _ (by rw [hTlen]; exact le_of_lt (Nat.mod_lt _ (by omega))),
      rot_eq_rotate _ _ (by rw [hTlen]; omega), List.rotate_rotate, ← hTlen,
      List.rotate_mod]
  have hsplit : rot (S ++ [sentinel]) k =
      (X ++ Y) ++ (rot (S ++ [sentinel]) k).drop (X.length + Y.length) := by
    conv_lhs => rw [← List.take_append_drop (X.length + Y.length) (rot (S ++ [sentinel]) k)]
    congr 1
    have hp2 := hp
    unfold pfx at hp2
    rw [List.length_append] at hp2
    exact hp2
  rw [hrot]
  unfold pfx
  rw [List.rotate_eq_drop_append_take (by rw [rot_length, hTlen]; omega),
    List.take_append_of_le_length (by rw [List.length_drop, rot_length, hTlen]; omega)]
  conv_lhs => rw [hsplit, List.append_assoc, List.drop_left]
  exact List.take_left Y _

theorem pairwise_lt_le_getLast : ∀ (l : List Nat), List.Pairwise (· < ·) l →
    ∀ x ∈ l, ∀ (h : l ≠ []), x ≤ l.getLast h
  | [], _, x, hx, h => absurd hx (List.not_mem_nil x)
  | [a], _, x, hx, h => by
    rcases List.mem_singleton.mp hx with rfl
    simp
  | a :: b :: t, hp, x, hx, h => by
    rw [List.getLast_cons (List.cons_ne_nil b t)]
    rcases List.mem_cons.mp hx with rfl | hx'
    · have hab : x < b := (List.pairwise_cons.mp hp).1 b (List.mem_cons_self b t)
      have := pairwise_lt_le_getLast (b :: t) (List.pairwise_cons.mp hp).2 b
        (List.mem_cons_self b t) (List.cons_ne_nil b t)
      omega
    · exact pairwise_lt_le_getLast (b :: t) (List.pairwise_cons.mp hp).2 x hx'
        (List.cons_ne_nil b t)
theorem countP_eq_range_getD {α : Type} (l : List α) (d : α) (p : α → Bool) :
    l.countP p = (List.range l.length).countP (fun j => p (l.getD j d)) := by
  conv_lhs => rw [← map_getD_range l d]
  rw [List.countP_map]
  rfl

theorem lexrots_mem_rot (S : List Char) (u : List Char)
    (hu : u ∈ lexsort_list (cyclic_rotations S)) :
    ∃ m, m < S.length + 1 ∧ u = rot (S ++ [sentinel]) m := by
  rw [(lexsort_perm _).mem_iff, cyclic_rotations_eq] at hu
  obtain ⟨m, hm, heq⟩ := List.mem_map.mp hu
  exact ⟨m, by simpa using List.mem_range.mp hm, heq.symm⟩

/-- Loop invariant for `bw_matching`: if `[top, bottom]` is exactly the set
of sorted-rotation rows whose rotation starts with the already-processed
suffix `R`, then the loop on the remaining reversed pattern `revp` returns
the number of rows starting with `revp.reverse ++ R`. -/
theorem bw_loop_correct (S : List Char) (hS : sentinel ∉ S) :
    ∀ (revp R : List Char) (top bottom : Nat),
      (∀ x ∈ revp, x ≠ sentinel) → (∀ x ∈ R, x ≠ sentinel) →
      top ≤ bottom → bottom < S.length + 1 →
      (∀ j, j < S.length + 1 →
        ((top ≤ j ∧ j ≤ bottom) ↔ pfx R ((lexsort_list (cyclic_rotations S)).getD j []))) →
      bw_matching_loop (bwt S) (last_to_first_index (bwt S)) (revp.length + 1) revp
          top bottom =
        some ((lexsort_list (cyclic_rotations S)).countP
          (fun u => decide (pfx (revp.reverse ++ R) u))) := by
  intro revp
  induction revp with
  | nil =>
    intro R top bottom _ _ htb hbn hINV
    have hcnt : (lexsort_list (cyclic_rotations S)).countP
        (fun u => decide (pfx (List.reverse [] ++ R) u)) = bottom - top + 1 := by
      simp only [List.reverse_nil, List.nil_append]
      rw [countP_eq_range_getD (lexsort_list (cyclic_rotations S)) [] _, lexrots_length]
      have hc : (List.range (S.length + 1)).countP
          (fun j => decide (pfx R ((lexsort_list (cyclic_rotations S)).getD j []))) =
          (List.range (S.length + 1)).countP (fun j => decide (top ≤ j ∧ j ≤ bottom)) := by
        apply List.countP_congr
        intro a ha
        have ha' := List.mem_range.mp ha
        simp only [decide_eq_decide, decide_eq_true_eq]
        exact (hINV a ha').symm
      rw [hc]
      exact countP_range_interval _ top bottom htb hbn
    rw [hcnt, bw_matching_loop, if_pos htb]
  | cons c rest ih =>
    intro R top bottom hrev hR htb hbn hINV
    have hcsent : c ≠ sentinel := hrev c (List.mem_cons_self c rest)
    have hrest : ∀ x ∈ rest, x ≠ sentinel := fun x hx => hrev x (List.mem_cons_of_mem c hx)
    have hRs : sentinel ∉ R := fun hmem => hR sentinel hmem rfl
    have hLlen : (bwt S).length = S.length + 1 := bwt_length S
    have hRlen : R.length ≤ S.length := by
      have htop : pfx R ((lexsort_list (cyclic_rotations S)).getD top []) :=
        (hINV top (by omega)).mp ⟨le_refl top, htb⟩
      exact pfx_row_length_le S hS R hRs top (by omega) htop
    have hpat : (c :: rest).reverse ++ R = rest.reverse ++ (c :: R) := by
      simp [List.reverse_cons, List.append_assoc]
    rw [bw_matching_loop, if_pos htb]
    have hmempos : ∀ i : Nat, (i ∈ (List.range' top (bottom + 1 - top)).filter
        (fun i => decide (charAt (bwt S) i = c))) ↔
        (i < S.length + 1 ∧ charAt (bwt S) i = c ∧
          pfx R ((lexsort_list (cyclic_rotations S)).getD i [])) := by
      intro i
      rw [List.mem_filter, List.mem_range'_1, decide_eq_true_eq]
      constructor
      · rintro ⟨⟨hti, hib⟩, hchar⟩
        have hib' : i ≤ bottom := by omega
        have hin : i < S.length + 1 := by omega
        exact ⟨hin, hchar, (hINV i hin).mp ⟨hti, hib'⟩⟩
      · rintro ⟨hin, hchar, hpfx⟩
        have hint := (hINV i hin).mpr hpfx
        exact ⟨⟨hint.1, by omega⟩, hchar⟩
    cases hpos : (List.range' top (bottom + 1 - top)).filter
        (fun i => decide (charAt (bwt S) i = c)) with
    | nil =>
      simp only [hpos]
      congr 1
      symm
      rw [List.countP_eq_zero]
      intro u hu
      simp only [decide_eq_true_eq]
      intro hpfxu
      obtain ⟨m, hm, rfl⟩ := lexrots_mem_rot S u hu
      rw [hpat] at hpfxu
      have hulen : (rot (S ++ [sentinel]) m).length = S.length + 1 := by
        rw [rot_length]
        simp
      have hplen : rest.reverse.length + (c :: R).length ≤ S.length + 1 := by
        have h1 := pfx_length_le _ _ hpfxu
        rw [List.length_append] at h1
        omega
      have hshift := pfx_rot_shift S m hm rest.reverse (c :: R) hplen hpfxu
      obtain ⟨j, hj, hAj⟩ := lexrots_row_of_rot S
        ((m + rest.reverse.length) % (S.length + 1)) (Nat.mod_lt _ (by omega))
      have hpj : pfx (c :: R) ((lexsort_list (cyclic_rotations S)).getD j []) := by
        rw [hAj]
        exact hshift
      obtain ⟨i, hi, hlf, hchar, hpR⟩ := lexrots_pfx_preimage S hS j hj c R hRlen hpj
      have himem : i ∈ (List.range' top (bottom + 1 - top)).filter
          (fun i => decide (charAt (bwt S) i = c)) :=
        (hmempos i).mpr ⟨hi, hchar, hpR⟩
      rw [hpos] at himem
      cases himem
    | cons p ps =>
      simp only [hpos]
      have hp_mem : p ∈ (List.range' top (bottom + 1 - top)).filter
          (fun i => decide (charAt (bwt S) i = c)) := by
        rw [hpos]
        exact List.mem_cons_self p ps
      have hq_mem : (p :: ps).getLast (List.cons_ne_nil p ps) ∈
          (List.range' top (bottom + 1 - top)).filter
            (fun i => decide (charAt (bwt S) i = c)) := by
        rw [hpos]
        exact List.getLast_mem (List.cons_ne_nil p ps)
      obtain ⟨hpn, hpchar, hppfx⟩ := (hmempos p).mp hp_mem
      obtain ⟨hqn, hqchar, hqpfx⟩ := (hmempos _).mp hq_mem
      have hpairwise : List.Pairwise (· < ·) (p :: ps) := by
        rw [← hpos]
        exact (List.pairwise_lt_range' top (bottom + 1 - top)).filter _
      have hple : ∀ x ∈ p :: ps, p ≤ x := by
        intro x hx
        rcases List.mem_cons.mp hx with rfl | hx'
        · exact le_refl x
        · exact le_of_lt ((List.pairwise_cons.mp hpairwise).1 x hx')
      have hqle : ∀ x ∈ p :: ps, x ≤ (p :: ps).getLast (List.cons_ne_nil p ps) :=
        fun x hx => pairwise_lt_le_getLast (p :: ps) hpairwise x hx (List.cons_ne_nil p ps)
      have hbot' : (last_to_first_index (bwt S)).getD
          ((p :: ps).getLast (List.cons_ne_nil p ps)) 0 < S.length + 1 :=
        (lf_rotR S hS _ hqn).1
      have htoppfx : pfx (c :: R) ((lexsort_list (cyclic_rotations S)).getD
          ((last_to_first_index (bwt S)).getD p 0) []) :=
        (lf_pfx_step S hS p hpn c R hRlen).mpr ⟨hpchar, hppfx⟩
      have hbotpfx : pfx (c :: R) ((lexsort_list (cyclic_rotations S)).getD
          ((last_to_first_index (bwt S)).getD
            ((p :: ps).getLast (List.cons_ne_nil p ps)) 0) []) :=
        (lf_pfx_step S hS _ hqn c R hRlen).mpr ⟨hqchar, hqpfx⟩
      have htb' : (last_to_first_index (bwt S)).getD p 0 ≤
          (last_to_first_index (bwt S)).getD
            ((p :: ps).getLast (List.cons_ne_nil p ps)) 0 :=
        lf_mono_eq_char (bwt S) p _ (hqle p (List.mem_cons_self p ps))
          (by rw [hLlen]; exact hqn) (hpchar.trans hqchar.symm)
      have hcR : ∀ x ∈ c :: R, x ≠ sentinel := by
        intro x hx
        rcases List.mem_cons.mp hx with rfl | hx'
        · exact hcsent
        · exact hR x hx'
      have hINVn : ∀ j, j < S.length + 1 →
          (((last_to_first_index (bwt S)).getD p 0 ≤ j ∧
            j ≤ (last_to_first_index (bwt S)).getD
              ((p :: ps).getLast (List.cons_ne_nil p ps)) 0) ↔
            pfx (c :: R) ((lexsort_list (cyclic_rotations S)).getD j [])) := by
        intro j hj
        constructor
        · rintro ⟨h1, h2⟩
          exact lexrots_pfx_interval S (c :: R) _ j _ h1 h2 hbot' htoppfx hbotpfx
        · intro hpfx
          obtain ⟨i, hi, hlf, hchar, hpR⟩ := lexrots_pfx_preimage S hS j hj c R hRlen hpfx
          have himem : i ∈ (List.range' top (bottom + 1 - top)).filter
              (fun i => decide (charAt (bwt S) i = c)) :=
            (hmempos i).mpr ⟨hi, hchar, hpR⟩
          rw [hpos] at himem
          constructor
          · have hmono := lf_mono_eq_char (bwt S) p i (hple i himem)
              (by rw [hLlen]; exact hi) (hpchar.trans hchar.symm)
            rw [hlf] at hmono
            exact hmono
          · have hmono := lf_mono_eq_char (bwt S) i _ (hqle i himem)
              (by rw [hLlen]; exact hqn) (hchar.trans hqchar.symm)
            rw [hlf] at hmono
            exact hmono
      rw [hpat]
      exact ih (c :: R) ((last_to_first_index (bwt S)).getD p 0)
        ((last_to_first_index (bwt S)).getD
          ((p :: ps).getLast (List.cons_ne_nil p ps)) 0)
        hrest hcR htb' hbot' hINVn

theorem pfx_charAt (Q u : List Char) (hp : pfx Q u) (j : Nat) (hj : j < Q.length) :
    charAt u j = charAt Q j := by
  have hlen := pfx_length_le Q u hp
  have hju : j < u.length := by omega
  have hjt : j < (u.take Q.length).length := by
    rw [List.length_take]
    omega
  have h1 : charAt (u.take Q.length) j = charAt Q j := by rw [hp]
  rw [← h1, charAt_eq_getElem _ j hjt, charAt_eq_getElem u j hju, List.getElem_take]

/-- A sentinel-free pattern is a prefix of the `k`-th rotation of
`S ++ [sentinel]` exactly when it occurs in `S` at offset `k`. -/
theorem pfx_rot_iff_slice (S : List Char) (hS : sentinel ∉ S) (P : List Char)
    (hPs : sentinel ∉ P) (k : Nat) (hk : k < S.length + 1) :
    pfx P (rot (S ++ [sentinel]) k) ↔
      (k + P.length ≤ S.length ∧ (S.drop k).take P.length = P) := by
  have hTlen : (S ++ [sentinel]).length = S.length + 1 := by simp
  have hdrop : (S ++ [sentinel]).drop k = S.drop k ++ [sentinel] :=
    List.drop_append_of_le_length (by omega)
  have htake : k + P.length ≤ S.length →
      (rot (S ++ [sentinel]) k).take P.length = (S.drop k).take P.length := by
    intro hle
    rw [rot,
      List.take_append_of_le_length (by rw [List.length_drop, hTlen]; omega), hdrop,
      List.take_append_of_le_length (by rw [List.length_drop]; omega)]
  constructor
  · intro hp
    have hle : k + P.length ≤ S.length := by
      by_contra hcon
      push_neg at hcon
      have hPlen : P.length ≤ S.length + 1 := by
        have h2 := pfx_length_le P _ hp
        rw [rot_length, hTlen] at h2
        exact h2
      have hm : S.length - k < P.length := by omega
      have hsent : charAt (rot (S ++ [sentinel]) k) (S.length - k) = sentinel :=
        (charAt_rot_sentinel S hS k (S.length - k) hk (by omega)).mpr rfl
      have hPe : charAt P (S.length - k) = sentinel := by
        rw [← pfx_charAt P _ hp (S.length - k) hm]
        exact hsent
      have hmem : sentinel ∈ P := by
        rw [← hPe, charAt_eq_getElem P _ hm]
        exact List.getElem_mem hm
      exact hPs hmem
    refine ⟨hle, ?_⟩
    rw [← htake hle]
    exact hp
  · rintro ⟨hle, hslice⟩
    unfold pfx
    rw [htake hle]
    exact hslice

/-- Rows of the sorted rotation table starting with a sentinel-free
pattern `P` are in bijection with the occurrences of `P` in `S`; counting
them gives the naive occurrence count. -/
theorem countP_pfx_eq_naive (S : List Char) (hS : sentinel ∉ S) (P : List Char)
    (hPs : sentinel ∉ P) :
    (lexsort_list (cyclic_rotations S)).countP (fun u => decide (pfx P u)) =
      naive_count S P := by
  have hTlen : (S ++ [sentinel]).length = S.length + 1 := by simp
  rw [(lexsort_perm (cyclic_rotations S)).countP_eq, cyclic_rotations_eq,
    List.countP_map, hTlen]
  have hpt : ∀ k ∈ List.range (S.length + 1),
      (((fun u => decide (pfx P u)) ∘ rot (S ++ [sentinel])) k = true ↔
        decide (k + P.length ≤ S.length ∧ (S.drop k).take P.length = P) = true) := by
    intro k hk
    have hk' := List.mem_range.mp hk
    simp only [Function.comp, decide_eq_true_eq]
    exact pfx_rot_iff_slice S hS P hPs k hk'
  rw [List.countP_congr hpt]
  unfold naive_count
  by_cases hPS : P.length ≤ S.length
  · have hsplit : S.length + 1 = (S.length - P.length + 1) + P.length := by omega
    rw [hsplit, List.range_add, List.countP_append]
    have h1 : (List.range (S.length - P.length + 1)).countP
        (fun k => decide (k + P.length ≤ S.length ∧ (S.drop k).take P.length = P)) =
        (List.range (S.length - P.length + 1)).countP
          (fun i => decide ((S.drop i).take P.length = P)) := by
      apply List.countP_congr
      intro a ha
      have ha' := List.mem_range.mp ha
      simp only [decide_eq_true_eq]
      constructor
      · exact fun h => h.2
      · exact fun h => ⟨by omega, h⟩
    have h2 : (((List.range P.length).map (S.length - P.length + 1 + ·)).countP
        (fun k => decide (k + P.length ≤ S.length ∧ (S.drop k).take P.length = P))) = 0 := by
      rw [List.countP_eq_zero]
      intro a ha
      rcases List.mem_map.mp ha with ⟨b, -, rfl⟩
      simp only [decide_eq_true_eq, not_and]
      intro hcon
      omega
    rw [h1, h2, Nat.add_zero]
  · have hz1 : (List.range (S.length + 1)).countP
        (fun k => decide (k + P.length ≤ S.length ∧ (S.drop k).take P.length = P)) = 0 := by
      rw [List.countP_eq_zero]
      intro a ha
      simp only [decide_eq_true_eq, not_and]
      intro hcon
      omega
    have hz2 : (List.range (S.length - P.length + 1)).countP
        (fun i => decide ((S.drop i).take P.length = P)) = 0 := by
      rw [List.countP_eq_zero]
      intro a ha
      have ha' := List.mem_range.mp ha
      have haz : a = 0 := by omega
      subst haz
      simp only [decide_eq_true_eq]
      intro hcon
      have hlen := congrArg List.length hcon
      simp only [List.length_take, List.length_drop] at hlen
      omega
    rw [hz1, hz2]

/-- C2 (amended): for every string `S` not containing the sentinel and
every nonempty pattern `P` not containing the sentinel, `bwa_search S P`
returns exactly the number of start offsets `i` in `S` with
`S[i:i+len(P)] == P`, counting overlapping occurrences — the count of the
naive scan `naive_count` used by `benchmark_search_methods`. (Patterns
containing the sentinel must be excluded: the backward search then counts
rows of the rotation table of `S + sentinel`, e.g. `bwa_search "A" "$"`
returns 1 although `"$"` never occurs in `"A"`.) -/
theorem bwa_search_matches_naive_count (S P : List Char)
    (hS : sentinel ∉ S) (hP : P ≠ []) (hPs : sentinel ∉ P) :
    bwa_search S P = some (naive_count S P) := by
  have hrev : ∀ x ∈ P.reverse, x ≠ sentinel := by
    intro x hx
    rw [List.mem_reverse] at hx
    intro hxs
    exact hPs (hxs ▸ hx)
  have hINV0 : ∀ j, j < S.length + 1 →
      ((0 ≤ j ∧ j ≤ S.length) ↔
        pfx [] ((lexsort_list (cyclic_rotations S)).getD j [])) := by
    intro j hj
    constructor
    · intro _
      exact pfx_nil _
    · intro _
      exact ⟨Nat.zero_le j, by omega⟩
  have hmain := bw_loop_correct S hS P.reverse [] 0 S.length hrev
    (by intro x hx; cases hx) (Nat.zero_le _) (by omega) hINV0
  rw [List.reverse_reverse, List.append_nil] at hmain
  rw [countP_pfx_eq_naive S hS P hPs] at hmain
  show bw_matching_loop (bwt S) (last_to_first_index (bwt S)) (P.length + 1)
      P.reverse 0 ((bwt S).length - 1) = some (naive_count S P)
  have hlen1 : (bwt S).length - 1 = S.length := by
    rw [bwt_length]
    omega
  have hfuel : P.length + 1 = P.reverse.length + 1 := by rw [List.length_reverse]
  rw [hlen1, hfuel]
  exact hmain

/-- Witness for `bwa_search_matches_naive_count` at `S = "ABAB"`,
`P = "AB"`: the search agrees with the naive scan, which finds the two
overlapping-free occurrences at offsets 0 and 2. -/
theorem bwa_search_matches_naive_count_witness :
    sentinel ∉ (['A', 'B', 'A', 'B'] : List Char) ∧
      (['A', 'B'] : List Char) ≠ [] ∧
      sentinel ∉ (['A', 'B'] : List Char) ∧
      naive_count ['A', 'B', 'A', 'B'] ['A', 'B'] = 2 ∧
      bwa_search ['A', 'B', 'A', 'B'] ['A', 'B'] =
        some (naive_count ['A', 'B', 'A', 'B'] ['A', 'B']) :=
  ⟨by decide, by decide, by decide, by decide,
    bwa_search_matches_naive_count ['A', 'B', 'A', 'B'] ['A', 'B']
      (by decide) (by decide) (by decide)⟩
